import Mathlib

/-!
Verification of the local agglomeration graph model of the
agglomeration-proofreading repository.

The development shallowly embeds the code of
agglomeration_proofreading/neuron_graph.py,
agglomeration_proofreading/ap_utils.py and the undo function of
agglomeration_proofreading/neuron_proofreader.py.

Modelling conventions:
* A Python dict with integer keys is an insertion-ordered association list
  List (Nat × α) whose keys are pairwise distinct (Python dicts cannot hold
  a key twice; the distinctness is carried as a hypothesis or invariant).
  Assignment d[k] = v replaces the value in place when k is present and
  appends the pair at the end otherwise (dset below), exactly as Python
  dict assignment behaves with respect to iteration order.
* A raised exception is modelled by Option (none = the call raised) or,
  for the mutating LocalGraph methods, by Except LocalGraph LocalGraph
  where the error value carries the state of the object at the moment the
  exception escaped (Python mutates in place, so the partial mutations
  performed before the raise remain visible).
* Segment ids are Nat; an edge accessed only through edge[0]/edge[1] is a
  pair Nat × Nat; the list argument of _add_to_cc is kept as List Nat
  because the function is called both with a single id and with an edge.
-/

/-! ## Dictionary operations (Python dict on integer keys) -/

/-- First-match lookup in an association list; with distinct keys this is
exactly Python dict access returning an Option instead of raising KeyError. -/
def lookupD {α : Type} : List (Nat × α) → Nat → Option α
  | [], _ => none
  | p :: rest, k => if p.1 = k then some p.2 else lookupD rest k

/-- The key list of a dict, in insertion order (Python dict.keys()). -/
def keysOf {α : Type} (d : List (Nat × α)) : List Nat := d.map Prod.fst

/-- Python dict assignment d[k] = v: replace in place when the key exists,
append at the end otherwise. -/
def dset {α : Type} (d : List (Nat × α)) (k : Nat) (v : α) : List (Nat × α) :=
  if k ∈ keysOf d then d.map (fun p => if p.1 = k then (k, v) else p)
  else d ++ [(k, v)]

/-- Python dict.pop(k, None): remove the entry with key k if present. -/
def dpop {α : Type} : List (Nat × α) → Nat → List (Nat × α)
  | [], _ => []
  | p :: rest, k => if p.1 = k then rest else p :: dpop rest k

/-- The adjacency list of a node, empty when the node is not a key.  Used
only to state properties; the embedded code itself goes through lookupD. -/
def adjOf (g : List (Nat × List Nat)) (x : Nat) : List Nat :=
  (lookupD g x).getD []

/-! ## ap_utils.py -/

/-- return_other on a two-element list [a, b] given one of its members
(ap_utils.return_other; total because the list has two elements). -/
def returnOther2 (a b item : Nat) : Nat := if item = a then b else a

/-- return_other on an arbitrary list, as _add_to_cc calls it: Python
evaluates item == _list[0] and returns _list[1] or _list[0]; indexing out
of range (the one-element-list case) raises IndexError, modelled by none. -/
def returnOtherL (l : List Nat) (item : Nat) : Option Nat :=
  if l.get? 0 = some item then l.get? 1 else l.get? 0

/-- Python list slice l[-n:] for n > 0: the last n elements. -/
def takeLast {α : Type} (l : List α) (n : Nat) : List α :=
  l.drop (l.length - n)

/-- ap_utils.CustomList: a list with an unsaved-changes flag and an
optional maximal length. -/
structure CustomList (α : Type) where
  data : List α
  unsaved_changes : Bool
  max_length : Option Nat
deriving Repr, DecidableEq

/-- CustomList.check_length: truncate from the front when the configured
maximal length is exceeded.  Python tests truthiness of max_length, so both
None and 0 disable truncation. -/
def CustomList.check_length {α : Type} (c : CustomList α) : CustomList α :=
  match c.max_length with
  | none => c
  | some n => if n = 0 then c else { c with data := takeLast c.data n }

/-- CustomList.append: append one item, set the dirty flag, truncate. -/
def CustomList.append {α : Type} (c : CustomList α) (item : α) : CustomList α :=
  CustomList.check_length { c with data := c.data ++ [item], unsaved_changes := true }

/-! ## neuron_graph.py : connected_components -/

/-- False in visited.values(). -/
def anyUnvisited (visited : List (Nat × Bool)) : Bool :=
  visited.any (fun p => !p.2)

/-- Number of unvisited entries; the termination measure of the search. -/
def countFalse (visited : List (Nat × Bool)) : Nat :=
  (visited.filter (fun p => !p.2)).length

/-- The list comprehension [sv for sv in nbrs if not visited[sv]]; a
missing key raises KeyError, modelled by none. -/
def filterUnvisited (visited : List (Nat × Bool)) : List Nat → Option (List Nat)
  | [] => some []
  | x :: xs =>
    match lookupD visited x, filterUnvisited visited xs with
    | some b, some rest => some (if b then rest else x :: rest)
    | _, _ => none

/-- The inner loop of connected_components:
while visited[sv_id] and queue: sv_id = queue.pop(0).
Returns the final sv_id and the remaining queue. -/
def ccInner (visited : List (Nat × Bool)) : Nat → List Nat → Option (Nat × List Nat)
  | sv, queue =>
    match lookupD visited sv with
    | none => none
    | some b =>
      if b then
        match queue with
        | [] => some (sv, [])
        | q :: rest => ccInner visited q rest
      else some (sv, queue)

/-- The outer while loop of connected_components, with a fuel argument for
structural recursion (the soundness theorem shows that the fuel passed by
connected_components is always sufficient on well-formed graphs, so the
fuel never changes the result there).  State threaded exactly as in the
source: visited dict, cc dict, running component index, current component,
queue, current sv_id. -/
def ccOuterF (g : List (Nat × List Nat)) :
    Nat → List (Nat × Bool) → List (Nat × List Nat) → Nat → List Nat → List Nat → Nat →
    Option (List (Nat × List Nat))
  | 0, _, _, _, _, _, _ => none
  | fuel + 1, visited, cc, idx, component, queue, sv =>
    if anyUnvisited visited then
      let visited' := dset visited sv true
      let component' := component ++ [sv]
      match lookupD g sv with
      | none => none
      | some nbrs =>
        match filterUnvisited visited' nbrs with
        | none => none
        | some fresh =>
          match ccInner visited' sv (queue ++ fresh) with
          | none => none
          | some (sv2, queue2) =>
            if queue2 = [] ∧ lookupD visited' sv2 = some true then
              let cc' := dset cc idx component'
              match (keysOf g).find? (fun k => lookupD visited' k == some false) with
              | some sv3 => ccOuterF g fuel visited' cc' (idx + 1) [] queue2 sv3
              | none => if visited'.all (fun p => p.2) then some cc' else none
            else ccOuterF g fuel visited' cc idx component' queue2 sv2
    else some cc

/-- neuron_graph.connected_components.  The initial
sv_id = next(iter(graph.keys())) raises StopIteration on an empty graph,
modelled by none. -/
def connected_components (graph : List (Nat × List Nat)) : Option (List (Nat × List Nat)) :=
  match keysOf graph with
  | [] => none
  | sv :: _ =>
    ccOuterF graph (graph.length + 1) (graph.map (fun p => (p.1, false))) [] 0 [] [] sv

/-! ## neuron_graph.py : isolate_set -/

/-- neuron_graph.isolate_set, with the loop written as the fold it is. -/
def isolate_set (sv_ids : List Nat) (edges : List (Nat × Nat)) : List (Nat × Nat) :=
  edges.foldl
    (fun acc e => if e.1 ∉ sv_ids ∨ e.2 ∉ sv_ids then acc ++ [e] else acc) []

/-! ## neuron_graph.py : LocalGraph -/

/-- The LocalGraph object: the graph dict and the connected-component dict. -/
structure LocalGraph where
  graph : List (Nat × List Nat)
  cc : List (Nat × List Nat)
deriving Repr, DecidableEq

/-- Result of a mutating LocalGraph method: ok with the new state, or error
carrying the state as mutated up to the moment the exception was raised. -/
abbrev GRes := Except LocalGraph LocalGraph

/-- The dict comprehension of _add_to_cc restricted to one node:
{node: idx for idx, members in self.cc.items() if node in members} keeps,
for a fixed node, the entry of the last component containing it. -/
def ccLookup : List (Nat × List Nat) → Nat → Option Nat
  | [], _ => none
  | p :: rest, node =>
    match ccLookup rest node with
    | some i => some i
    | none => if node ∈ p.2 then some p.1 else none

/-- The _map dict of _add_to_cc: fold the per-node comprehension results
with dict update over the nodes of the edge. -/
def buildMap (cc : List (Nat × List Nat)) (edge : List Nat) : List (Nat × Nat) :=
  edge.foldl
    (fun m node =>
      match ccLookup cc node with
      | some i => dset m node i
      | none => m) []

/-- max(list(cc.keys())) for a nonempty cc (the code only evaluates it
then). -/
def maxKey : List (Nat × List Nat) → Nat
  | [] => 0
  | p :: rest => max p.1 (maxKey rest)

/-- Re-indexing {i: members for i, members in enumerate(cc.values())}. -/
def reindex (cc : List (Nat × List Nat)) : List (Nat × List Nat) :=
  cc.enum.map (fun p => (p.1, p.2.2))

/-- LocalGraph._add_to_cc.  none models the IndexError that
return_other(edge, *_map) raises when edge is a single id already present
in a component.  In the two-component branch the code reads
_map[edge[0]], _map[edge[1]], cc[...] which cannot fail there; the
corresponding lookups return none only in unreachable configurations. -/
def addToCC (cc : List (Nat × List Nat)) (edge : List Nat) : Option (List (Nat × List Nat)) :=
  match buildMap cc edge with
  | [] =>
    some (dset cc (if cc = [] then 0 else maxKey cc + 1) edge)
  | [(k, i)] =>
    match returnOtherL edge k, lookupD cc i with
    | some other, some members => some (dset cc i (members ++ [other]))
    | _, _ => none
  | mp :: mq :: mrest =>
    if mrest = [] then
      match edge.get? 0, edge.get? 1 with
      | some e0, some e1 =>
        match lookupD (mp :: mq :: mrest) e0, lookupD (mp :: mq :: mrest) e1 with
        | some i0, some i1 =>
          if i0 ≠ i1 then
            match lookupD cc i0, lookupD cc i1 with
            | some c0, some c1 => some (reindex (dpop (dset cc i0 (c0 ++ c1)) i1))
            | _, _ => none
          else some cc
        | _, _ => none
      | _, _ => none
    else some cc

/-- LocalGraph.add_node for a single id: graph[node] = [] then
_add_to_cc([node]).  At the IndexError of _add_to_cc the graph entry has
already been reset but cc is untouched. -/
def addNode (st : LocalGraph) (node : Nat) : GRes :=
  let g' := dset st.graph node []
  match addToCC st.cc [node] with
  | none => .error ⟨g', st.cc⟩
  | some cc' => .ok ⟨g', cc'⟩

/-- One iteration of the loop of add_single_edge for the edge [a, b] at a
given endpoint: add the node when missing, then append the partner to its
adjacency list when absent. -/
def edgeStep (st : LocalGraph) (a b node : Nat) : GRes := do
  let st1 ← if node ∈ keysOf st.graph then Except.ok st else addNode st node
  let partner := returnOther2 a b node
  match lookupD st1.graph node with
  | none => .error st1
  | some l =>
    .ok (if partner ∈ l then st1 else ⟨dset st1.graph node (l ++ [partner]), st1.cc⟩)

/-- LocalGraph.add_single_edge on the edge [a, b] (the loop unrolled over
its two members), followed by _add_to_cc([a, b]). -/
def addSingleEdge (st : LocalGraph) (a b : Nat) : GRes := do
  let st1 ← edgeStep st a b a
  let st2 ← edgeStep st1 a b b
  match addToCC st2.cc [a, b] with
  | none => .error st2
  | some cc' => .ok ⟨st2.graph, cc'⟩

/-- The graph mutation of del_node for a single id: pop the key, then
strip the id from every remaining adjacency list (the guarded list.remove
deletes the first occurrence). -/
def delGraph (g : List (Nat × List Nat)) (node : Nat) : List (Nat × List Nat) :=
  (dpop g node).map (fun p => if node ∈ p.2 then (p.1, p.2.erase node) else p)

/-- LocalGraph.del_node for a single id: mutate the graph dict, then
recompute the components from scratch; on an emptied graph that
recomputation raises. -/
def delNode (st : LocalGraph) (node : Nat) : GRes :=
  let g2 := delGraph st.graph node
  match connected_components g2 with
  | none => .error ⟨g2, st.cc⟩
  | some cc' => .ok ⟨g2, cc'⟩

/-- LocalGraph.check_in_graph on a list of nodes. -/
def checkInGraph (g : List (Nat × List Nat)) (nodes : List Nat) : Bool :=
  nodes.all (fun node => decide (node ∈ keysOf g))

/-- Python list.remove: drop the first occurrence, ValueError (none) when
the element is absent. -/
def listRemove (l : List Nat) (x : Nat) : Option (List Nat) :=
  if x ∈ l then some (l.erase x) else none

/-- self.graph[node].remove(other): KeyError or ValueError leave the state
unchanged because they are raised before any mutation of this step. -/
def removeFromAdj (st : LocalGraph) (node other : Nat) : GRes :=
  match lookupD st.graph node with
  | none => .error st
  | some l =>
    match listRemove l other with
    | none => .error st
    | some l' => .ok ⟨dset st.graph node l', st.cc⟩

/-- LocalGraph.del_single_edge on the edge [a, b]: when both endpoints are
keys, remove each endpoint from the other's adjacency list; otherwise
print a diagnostic and leave the graph unchanged. -/
def delSingleEdge (st : LocalGraph) (a b : Nat) : GRes :=
  if checkInGraph st.graph [a, b] then do
    let st1 ← removeFromAdj st a (returnOther2 a b a)
    removeFromAdj st1 b (returnOther2 a b b)
  else .ok st

/-- LocalGraph.del_edge on a single edge: del_single_edge then a full
recomputation of the components. -/
def delEdge (st : LocalGraph) (a b : Nat) : GRes := do
  let st1 ← delSingleEdge st a b
  match connected_components st1.graph with
  | none => .error st1
  | some cc' => .ok ⟨st1.graph, cc'⟩

/-! ## Operation sequences on LocalGraph -/

/-- The four mutating LocalGraph operations, each on a single id or edge
(the list-accepting entry points just loop over these bodies). -/
inductive GraphOp where
  | addN (x : Nat)
  | delN (x : Nat)
  | addE (a b : Nat)
  | delE (a b : Nat)
deriving Repr, DecidableEq

/-- Apply one operation. -/
def applyOp (st : LocalGraph) : GraphOp → GRes
  | .addN x => addNode st x
  | .delN x => delNode st x
  | .addE a b => addSingleEdge st a b
  | .delE a b => delEdge st a b

/-- Run a sequence of operations from a given state, stopping at the first
raised exception. -/
def runOpsFrom (st : LocalGraph) : List GraphOp → GRes
  | [] => .ok st
  | op :: rest =>
    match applyOp st op with
    | .error e => .error e
    | .ok st' => runOpsFrom st' rest

/-- Run a sequence of operations from the freshly constructed LocalGraph
(both attributes empty). -/
def runOps (ops : List GraphOp) : GRes :=
  runOpsFrom ⟨[], []⟩ ops

/-- True when the operation is add_edge with two equal endpoints. -/
def GraphOp.isSelfEdge : GraphOp → Bool
  | .addE a b => a = b
  | _ => false

/-! ## neuron_proofreader.py : undo -/

/-- One action-history entry: the tag of the dict pushed by the mutation
sites, the deep-copied pre-mutation graph snapshot, and for split the list
of removed edges. -/
inductive HistEntry where
  | add_segment (snapshot : List (Nat × List Nat))
  | del_segment (snapshot : List (Nat × List Nat))
  | set (snapshot : List (Nat × List Nat))
  | del (snapshot : List (Nat × List Nat))
  | split (edges : List (Nat × Nat)) (snapshot : List (Nat × List Nat))
deriving Repr, DecidableEq

/-- The graph snapshot stored in a history entry (entry[tag], resp.
entry['split'][-1]). -/
def snapshotOf : HistEntry → List (Nat × List Nat)
  | .add_segment s => s
  | .del_segment s => s
  | .set s => s
  | .del s => s
  | .split _ s => s

/-- The slice of NeuronProofreading state that _undo_last_action touches. -/
structure PRState where
  graph : LocalGraph
  action_history : List HistEntry
  edges_to_set : List (Nat × Nat)
  edges_to_delete : List (Nat × Nat)
deriving Repr, DecidableEq

/-- NeuronProofreading._undo_last_action: when the history is non-empty,
restore the graph attribute from the snapshot of the last entry, roll back
the ledger matching the entry kind (CustomList pop, resp. in-place
subtraction), recompute cc from the restored graph when it is non-empty
and clear it otherwise, and pop the history entry.  none models a raise of
the recomputation (unreachable from snapshots of reachable states). -/
def undoLastAction (st : PRState) : Option PRState :=
  match st.action_history.getLast? with
  | none => some st
  | some entry =>
    let g' := snapshotOf entry
    let e2s := match entry with
      | .set _ => st.edges_to_set.dropLast
      | _ => st.edges_to_set
    let e2d := match entry with
      | .del _ => st.edges_to_delete.dropLast
      | .split es _ => st.edges_to_delete.filter (fun e => e ∉ es)
      | _ => st.edges_to_delete
    match g' with
    | [] => some ⟨⟨g', []⟩, st.action_history.dropLast, e2s, e2d⟩
    | _ :: _ =>
      match connected_components g' with
      | none => none
      | some cc' => some ⟨⟨g', cc'⟩, st.action_history.dropLast, e2s, e2d⟩

/-! ## Reachability and well-formedness -/

/-- One edge step in the graph dict: y occurs in the adjacency list stored
for x. -/
def Adj (g : List (Nat × List Nat)) (x y : Nat) : Prop :=
  ∃ l, lookupD g x = some l ∧ y ∈ l

/-- Connected by a path of edges (reflexive-transitive closure). -/
def Reachable (g : List (Nat × List Nat)) : Nat → Nat → Prop :=
  Relation.ReflTransGen (Adj g)

/-- The concatenation of all component member lists of a cc dict. -/
def ccJoin (cc : List (Nat × List Nat)) : List Nat :=
  (cc.map Prod.snd).flatten

/-- Well-formedness of the graph dict: distinct keys (a Python dict),
adjacency closed under the key set, and symmetric. -/
structure WFGraph (g : List (Nat × List Nat)) : Prop where
  knd : (keysOf g).Nodup
  closed : ∀ p ∈ g, ∀ y ∈ p.2, y ∈ keysOf g
  symm : ∀ x y, y ∈ adjOf g x → x ∈ adjOf g y

/-- Well-formedness of the cc dict relative to the graph dict: distinct
component indices, non-empty components whose members are graph keys,
every key covered, pairwise disjoint components, members mutually
connected, and components closed under adjacency. -/
structure WFcc (g cc : List (Nat × List Nat)) : Prop where
  knd : (keysOf cc).Nodup
  cne : ∀ e ∈ cc, e.2 ≠ []
  sub : ∀ e ∈ cc, ∀ x ∈ e.2, x ∈ keysOf g
  cov : ∀ x ∈ keysOf g, ∃ e ∈ cc, x ∈ e.2
  dis : cc.Pairwise (fun e1 e2 => ∀ x, x ∈ e1.2 → x ∉ e2.2)
  conn : ∀ e ∈ cc, ∀ x ∈ e.2, ∀ y ∈ e.2, Reachable g x y
  cls : ∀ e ∈ cc, ∀ x ∈ e.2, ∀ y, Adj g x y → y ∈ e.2

/-- The invariant of a LocalGraph object: a well-formed graph dict with
duplicate-free adjacency lists and a cc dict consistent with it. -/
def WFState (st : LocalGraph) : Prop :=
  WFGraph st.graph ∧ (∀ p ∈ st.graph, p.2.Nodup) ∧ WFcc st.graph st.cc

/-- Two cc dicts with the same component memberships (indices may
differ). -/
def sameSetFam (cc1 cc2 : List (Nat × List Nat)) : Prop :=
  (∀ e ∈ cc1, ∃ f ∈ cc2, ∀ x, x ∈ e.2 ↔ x ∈ f.2) ∧
  (∀ f ∈ cc2, ∃ e ∈ cc1, ∀ x, x ∈ e.2 ↔ x ∈ f.2)

/-- The loop invariant of the component search in connected_components. -/
structure CCInv (g : List (Nat × List Nat)) (visited : List (Nat × Bool))
    (cc : List (Nat × List Nat)) (idx : Nat)
    (component queue : List Nat) (sv : Nat) : Prop where
  vkeys : keysOf visited = keysOf g
  svmem : lookupD visited sv = some false
  compV : ∀ x ∈ component, lookupD visited x = some true
  trueIff : ∀ x, lookupD visited x = some true ↔ (x ∈ ccJoin cc ∨ x ∈ component)
  nd : (ccJoin cc ++ component).Nodup
  qK : ∀ u ∈ queue, u ∈ keysOf g
  qAdj : ∀ u ∈ queue, ∃ m ∈ component, Adj g m u
  frontier : ∀ x ∈ component, ∀ y, Adj g x y →
    lookupD visited y = some true ∨ y ∈ queue ∨ y = sv
  reach : ∀ x ∈ component, Reachable g x sv
  fin : ∀ e ∈ cc, e.2 ≠ [] ∧ (∀ x ∈ e.2, ∀ y, Adj g x y → y ∈ e.2) ∧
    (∀ x ∈ e.2, ∀ y ∈ e.2, Reachable g x y)
  ccidx : cc.map Prod.fst = List.range idx

/-- The postcondition of connected_components on a graph dict: indices are
0..k-1 in discovery order, the membership lists partition the key set, and
every membership list is closed under adjacency and mutually connected. -/
def CCPost (g out : List (Nat × List Nat)) : Prop :=
  (out.map Prod.fst = List.range out.length) ∧
  (ccJoin out).Nodup ∧
  (∀ x, x ∈ ccJoin out ↔ x ∈ keysOf g) ∧
  (∀ e ∈ out, e.2 ≠ []) ∧
  (∀ e ∈ out, ∀ x ∈ e.2, ∀ y, Adj g x y → y ∈ e.2) ∧
  (∀ e ∈ out, ∀ x ∈ e.2, ∀ y ∈ e.2, Reachable g x y)

/-- The fresh component index chosen by _add_to_cc for a new component. -/
def freshIdx (cc : List (Nat × List Nat)) : Nat :=
  if cc = [] then 0 else maxKey cc + 1

/-- The net effect of the node-insertion guard of add_single_edge on the
graph dict. -/
def nodeAddG (g : List (Nat × List Nat)) (x : Nat) : List (Nat × List Nat) :=
  if x ∈ keysOf g then g else g ++ [(x, [])]

/-- The net effect of the node-insertion guard of add_single_edge on the
cc dict. -/
def nodeAddCC (g cc : List (Nat × List Nat)) (x : Nat) : List (Nat × List Nat) :=
  if x ∈ keysOf g then cc else cc ++ [(freshIdx cc, [x])]

/-- The guarded partner append of add_single_edge on the graph dict. -/
def eAdd (g : List (Nat × List Nat)) (x y : Nat) : List (Nat × List Nat) :=
  match lookupD g x with
  | none => g
  | some l => if y ∈ l then g else dset g x (l ++ [y])

/-! # Lemmas -/

/-! ## Association-list lemmas -/

theorem lookupD_eq_none {α : Type} (d : List (Nat × α)) (k : Nat) :
    lookupD d k = none ↔ k ∉ keysOf d := by
  induction d with
  | nil => simp [lookupD, keysOf]
  | cons p rest ih =>
    by_cases h : p.1 = k
    · simp [lookupD, keysOf, h]
    · have h' : ¬ k = p.1 := fun he => h he.symm
      simp [lookupD, keysOf, h, h', ih]

theorem lookupD_mem {α : Type} {d : List (Nat × α)} {k : Nat} {v : α} :
    lookupD d k = some v → (k, v) ∈ d := by
  induction d with
  | nil => intro h; simp [lookupD] at h
  | cons p rest ih =>
    intro h
    rcases p with ⟨k', v'⟩
    by_cases hp : k' = k
    · subst hp
      simp [lookupD] at h
      subst h
      exact List.mem_cons_self _ _
    · simp [lookupD, hp] at h
      exact List.mem_cons_of_mem _ (ih h)

theorem mem_keysOf_of_lookupD {α : Type} {d : List (Nat × α)} {k : Nat} {v : α}
    (h : lookupD d k = some v) : k ∈ keysOf d := by
  rw [keysOf]
  exact List.mem_map_of_mem Prod.fst (lookupD_mem h)

theorem lookupD_isSome {α : Type} (d : List (Nat × α)) (k : Nat) :
    (lookupD d k).isSome ↔ k ∈ keysOf d := by
  rcases ho : lookupD d k with _ | v
  · simp [(lookupD_eq_none d k).mp ho]
  · simp [mem_keysOf_of_lookupD ho]

theorem mem_lookupD {α : Type} {d : List (Nat × α)} {k : Nat} {v : α}
    (hnd : (keysOf d).Nodup) (h : (k, v) ∈ d) : lookupD d k = some v := by
  induction d with
  | nil => simp at h
  | cons p rest ih =>
    rw [keysOf, List.map_cons, List.nodup_cons] at hnd
    rcases List.mem_cons.mp h with h1 | h1
    · rw [← h1, lookupD]
      simp
    · have hk : k ∈ keysOf rest := by
        rw [keysOf]
        exact List.mem_map_of_mem Prod.fst h1
      have hp : ¬ p.1 = k := by
        intro he
        rw [he] at hnd
        exact hnd.1 (by rw [keysOf] at hk; exact hk)
      rw [lookupD, if_neg hp]
      exact ih hnd.2 h1

theorem keysOf_append {α : Type} (d1 d2 : List (Nat × α)) :
    keysOf (d1 ++ d2) = keysOf d1 ++ keysOf d2 := by
  simp [keysOf]

theorem lookupD_append {α : Type} (d1 d2 : List (Nat × α)) (k : Nat) :
    lookupD (d1 ++ d2) k =
      match lookupD d1 k with
      | some v => some v
      | none => lookupD d2 k := by
  induction d1 with
  | nil => simp [lookupD]
  | cons p rest ih =>
    by_cases hp : p.1 = k <;> simp [lookupD, hp, ih]

theorem lookupD_mapReplace {α : Type} (d : List (Nat × α)) (k k' : Nat) (v : α) :
    lookupD (d.map (fun p => if p.1 = k then (k, v) else p)) k' =
      if k' = k then (if k ∈ keysOf d then some v else none) else lookupD d k' := by
  induction d with
  | nil => simp [lookupD, keysOf]
  | cons p rest ih =>
    by_cases hp : p.1 = k
    · by_cases hk : k' = k
      · subst hk
        simp [lookupD, hp, keysOf]
      · have h2 : ¬ k = k' := fun he => hk he.symm
        have h3 : ¬ p.1 = k' := by rw [hp]; exact h2
        simp [lookupD, hp, hk, h2, h3, ih]
    · by_cases hpk : p.1 = k'
      · have hk : ¬ k' = k := by rw [← hpk]; exact hp
        simp [lookupD, hp, hpk, hk]
      · have hmem : (k ∈ keysOf (p :: rest)) ↔ (k ∈ keysOf rest) := by
          rw [keysOf, List.map_cons, List.mem_cons]
          constructor
          · rintro (he | hm)
            · exact absurd he.symm hp
            · exact hm
          · exact Or.inr
        simp only [lookupD, hp, hpk, if_false, ih, hmem]

theorem lookupD_dset {α : Type} (d : List (Nat × α)) (k k' : Nat) (v : α) :
    lookupD (dset d k v) k' = if k' = k then some v else lookupD d k' := by
  by_cases h : k ∈ keysOf d
  · rw [dset, if_pos h, lookupD_mapReplace, if_pos h]
  · rw [dset, if_neg h, lookupD_append]
    by_cases hk : k' = k
    · subst hk
      have : lookupD d k' = none := (lookupD_eq_none d k').mpr h
      simp [this, lookupD]
    · have hk2 : ¬ k = k' := fun he => hk he.symm
      rcases ho : lookupD d k' with _ | v'
      · simp [ho, lookupD, hk, hk2]
      · simp [ho, hk]

theorem lookupD_dset_self {α : Type} (d : List (Nat × α)) (k : Nat) (v : α) :
    lookupD (dset d k v) k = some v := by
  rw [lookupD_dset]
  simp

theorem lookupD_dset_ne {α : Type} (d : List (Nat × α)) {k k' : Nat} (v : α)
    (h : k' ≠ k) : lookupD (dset d k v) k' = lookupD d k' := by
  rw [lookupD_dset, if_neg h]

theorem keysOf_dset {α : Type} (d : List (Nat × α)) (k : Nat) (v : α) :
    keysOf (dset d k v) = if k ∈ keysOf d then keysOf d else keysOf d ++ [k] := by
  by_cases h : k ∈ keysOf d
  · rw [dset, if_pos h, if_pos h, keysOf, keysOf, List.map_map]
    apply List.map_congr_left
    intro p _
    by_cases hp : p.1 = k <;> simp [hp]
  · rw [dset, if_neg h, if_neg h, keysOf_append]
    rfl

theorem mem_keysOf_dset {α : Type} (d : List (Nat × α)) (k k' : Nat) (v : α) :
    k' ∈ keysOf (dset d k v) ↔ k' ∈ keysOf d ∨ k' = k := by
  rw [keysOf_dset]
  by_cases h : k ∈ keysOf d
  · simp only [h, if_true]
    constructor
    · exact Or.inl
    · rintro (hm | he)
      · exact hm
      · subst he
        exact h
  · simp [h]

theorem keysOf_dpop {α : Type} (d : List (Nat × α)) (k : Nat) :
    keysOf (dpop d k) = (keysOf d).erase k := by
  induction d with
  | nil => simp [dpop, keysOf]
  | cons p rest ih =>
    by_cases hp : p.1 = k
    · subst hp
      rw [dpop, if_pos rfl]
      simp only [keysOf, List.map_cons, List.erase_cons_head]
    · simp only [dpop, if_neg hp, keysOf, List.map_cons]
      rw [List.erase_cons_tail (by simpa using hp)]
      simp only [keysOf] at ih
      rw [ih]

theorem lookupD_dpop_ne {α : Type} (d : List (Nat × α)) {k k' : Nat}
    (h : k' ≠ k) : lookupD (dpop d k) k' = lookupD d k' := by
  have h4 : ¬ k = k' := fun he => h he.symm
  induction d with
  | nil => simp [dpop]
  | cons p rest ih =>
    by_cases hp : p.1 = k
    · have h3 : ¬ p.1 = k' := by rw [hp]; exact h4
      simp [dpop, hp, lookupD, h3, h4]
    · by_cases hp' : p.1 = k' <;> simp [dpop, hp, lookupD, hp', ih, h, h4]

theorem lookupD_dpop_self {α : Type} (d : List (Nat × α)) (k : Nat)
    (hnd : (keysOf d).Nodup) : lookupD (dpop d k) k = none := by
  rw [lookupD_eq_none, keysOf_dpop]
  exact hnd.not_mem_erase

theorem mem_dpop {α : Type} {d : List (Nat × α)} {k : Nat} {p : Nat × α}
    (h : p ∈ dpop d k) : p ∈ d := by
  induction d with
  | nil => simpa [dpop] using h
  | cons q rest ih =>
    by_cases hq : q.1 = k
    · rw [dpop, if_pos hq] at h
      exact List.mem_cons_of_mem _ h
    · rw [dpop, if_neg hq] at h
      rcases List.mem_cons.mp h with h1 | h1
      · rw [h1]
        exact List.mem_cons_self _ _
      · exact List.mem_cons_of_mem _ (ih h1)

/-! ## Except helpers -/

theorem gbind_error (e : LocalGraph) (f : LocalGraph → GRes) :
    (Except.error e >>= f) = Except.error e := rfl

theorem gbind_ok (s : LocalGraph) (f : LocalGraph → GRes) :
    (Except.ok s >>= f) = f s := rfl

/-! ## isolate_set -/

theorem isolate_set_aux (S : List Nat) (edges acc : List (Nat × Nat)) :
    edges.foldl (fun acc e => if e.1 ∉ S ∨ e.2 ∉ S then acc ++ [e] else acc) acc =
      acc ++ edges.filter (fun e => decide (e.1 ∉ S ∨ e.2 ∉ S)) := by
  induction edges generalizing acc with
  | nil => simp
  | cons x xs ih =>
    by_cases h : x.1 ∉ S ∨ x.2 ∉ S <;>
      simp [List.foldl_cons, h, ih, List.filter_cons]

/-- C4: isolate_set(S, edges) returns exactly the edges of the input list,
in input order, having at least one endpoint outside S; edges with both
endpoints in S are never returned. -/
theorem claim4_isolate_set (S : List Nat) (edges : List (Nat × Nat)) :
    isolate_set S edges = edges.filter (fun e => decide (e.1 ∉ S ∨ e.2 ∉ S)) ∧
    ∀ e ∈ isolate_set S edges, ¬(e.1 ∈ S ∧ e.2 ∈ S) := by
  have h1 : isolate_set S edges =
      edges.filter (fun e => decide (e.1 ∉ S ∨ e.2 ∉ S)) := by
    rw [isolate_set, isolate_set_aux]
    rfl
  refine ⟨h1, ?_⟩
  intro e he
  rw [h1] at he
  have := List.of_mem_filter he
  rcases (by simpa using this : e.1 ∉ S ∨ e.2 ∉ S) with h | h
  · exact fun hc => h hc.1
  · exact fun hc => h hc.2

/-! ## CustomList history bound -/

set_option maxRecDepth 8000 in
/-- C9: with maximal length 10, appending 11 entries one at a time leaves
exactly the last 10 in insertion order; the first-appended entry is gone. -/
theorem claim9_history_bound (xs : List Nat) (h : xs.length = 11) :
    (xs.foldl CustomList.append ⟨[], false, some 10⟩).data = xs.drop 1 ∧
    (xs.Nodup → ∀ h0, xs.get? 0 = some h0 →
      h0 ∉ (xs.foldl CustomList.append ⟨[], false, some 10⟩).data) := by
  rcases xs with _ | ⟨x0, xs⟩; · simp at h
  rcases xs with _ | ⟨x1, xs⟩; · simp at h
  rcases xs with _ | ⟨x2, xs⟩; · simp at h
  rcases xs with _ | ⟨x3, xs⟩; · simp at h
  rcases xs with _ | ⟨x4, xs⟩; · simp at h
  rcases xs with _ | ⟨x5, xs⟩; · simp at h
  rcases xs with _ | ⟨x6, xs⟩; · simp at h
  rcases xs with _ | ⟨x7, xs⟩; · simp at h
  rcases xs with _ | ⟨x8, xs⟩; · simp at h
  rcases xs with _ | ⟨x9, xs⟩; · simp at h
  rcases xs with _ | ⟨x10, xs⟩; · simp at h
  have hx : xs = [] := by
    have : xs.length = 0 := by simpa using h
    simpa using this
  subst hx
  have hdata : (([x0, x1, x2, x3, x4, x5, x6, x7, x8, x9, x10] : List Nat).foldl
      CustomList.append ⟨[], false, some 10⟩).data =
      [x1, x2, x3, x4, x5, x6, x7, x8, x9, x10] := by
    simp [CustomList.append, CustomList.check_length, takeLast]
  constructor
  · rw [hdata]
    rfl
  · intro hnd h0 hh0
    have h0x : h0 = x0 := by simpa using hh0.symm
    subst h0x
    rw [List.nodup_cons] at hnd
    rw [hdata]
    exact hnd.1

theorem claim9_witness :
    ([0, 1, 2, 3, 4, 5, 6, 7, 8, 9, 10] : List Nat).length = 11 ∧
    ((([0, 1, 2, 3, 4, 5, 6, 7, 8, 9, 10] : List Nat).foldl CustomList.append
        ⟨[], false, some 10⟩).data = ([0, 1, 2, 3, 4, 5, 6, 7, 8, 9, 10] : List Nat).drop 1 ∧
      (([0, 1, 2, 3, 4, 5, 6, 7, 8, 9, 10] : List Nat).Nodup → ∀ h0,
        ([0, 1, 2, 3, 4, 5, 6, 7, 8, 9, 10] : List Nat).get? 0 = some h0 →
        h0 ∉ (([0, 1, 2, 3, 4, 5, 6, 7, 8, 9, 10] : List Nat).foldl CustomList.append
          ⟨[], false, some 10⟩).data)) :=
  ⟨by decide, claim9_history_bound [0, 1, 2, 3, 4, 5, 6, 7, 8, 9, 10] (by decide)⟩

/-! ## del_edge on a missing edge -/

/-- C10: on a symmetric graph, del_edge([a, b]) with both endpoints
present but b not adjacent to a raises ValueError (the logged-and-skipped
branch does not fire) and the state is unchanged at the raise. -/
theorem claim10_del_edge_missing (st : LocalGraph) (a b : Nat)
    (hsym : ∀ x y, y ∈ adjOf st.graph x → x ∈ adjOf st.graph y)
    (ha : a ∈ keysOf st.graph) (hb : b ∈ keysOf st.graph)
    (hnab : b ∉ adjOf st.graph a) :
    delEdge st a b = .error st := by
  have hchk : checkInGraph st.graph [a, b] = true := by
    simp [checkInGraph, ha, hb]
  obtain ⟨l, hl⟩ : ∃ l, lookupD st.graph a = some l := by
    rcases ho : lookupD st.graph a with _ | l
    · exact absurd ((lookupD_eq_none _ _).mp ho) (by simpa using ha)
    · exact ⟨l, rfl⟩
  have hbl : b ∉ l := by
    have hadj : adjOf st.graph a = l := by rw [adjOf, hl]; rfl
    rw [← hadj]
    exact hnab
  have hrm : removeFromAdj st a (returnOther2 a b a) = .error st := by
    have hro : returnOther2 a b a = b := by simp [returnOther2]
    rw [hro, removeFromAdj, hl]
    simp [listRemove, hbl]
  have hdse : delSingleEdge st a b = .error st := by
    rw [delSingleEdge, if_pos hchk]
    rw [show (do
      let st1 ← removeFromAdj st a (returnOther2 a b a)
      removeFromAdj st1 b (returnOther2 a b b) : GRes) =
        (removeFromAdj st a (returnOther2 a b a) >>=
          fun st1 => removeFromAdj st1 b (returnOther2 a b b)) from rfl]
    rw [hrm, gbind_error]
  rw [delEdge,
    show (do
      let st1 ← delSingleEdge st a b
      match connected_components st1.graph with
      | none => Except.error st1
      | some cc' => Except.ok ⟨st1.graph, cc'⟩ : GRes) =
      (delSingleEdge st a b >>= fun st1 =>
        match connected_components st1.graph with
        | none => Except.error st1
        | some cc' => Except.ok ⟨st1.graph, cc'⟩) from rfl,
    hdse, gbind_error]

theorem claim10_witness :
    (∀ x y, y ∈ adjOf ([(1, []), (2, [])] : List (Nat × List Nat)) x →
      x ∈ adjOf ([(1, []), (2, [])] : List (Nat × List Nat)) y) ∧
    1 ∈ keysOf ([(1, []), (2, [])] : List (Nat × List Nat)) ∧
    2 ∈ keysOf ([(1, []), (2, [])] : List (Nat × List Nat)) ∧
    2 ∉ adjOf ([(1, []), (2, [])] : List (Nat × List Nat)) 1 ∧
    delEdge ⟨[(1, []), (2, [])], [(0, [1]), (1, [2])]⟩ 1 2 =
      .error ⟨[(1, []), (2, [])], [(0, [1]), (1, [2])]⟩ := by
  have hsym : ∀ x y, y ∈ adjOf ([(1, []), (2, [])] : List (Nat × List Nat)) x →
      x ∈ adjOf ([(1, []), (2, [])] : List (Nat × List Nat)) y := by
    intro x y hy
    rw [adjOf] at hy
    rcases ho : lookupD ([(1, []), (2, [])] : List (Nat × List Nat)) x with _ | l
    · rw [ho] at hy
      simp at hy
    · rw [ho] at hy
      have hm := lookupD_mem ho
      simp at hm
      rcases hm with ⟨hx, hl⟩ | ⟨hx, hl⟩ <;> (subst hl; simp at hy)
  exact ⟨hsym, by decide, by decide, by decide,
    claim10_del_edge_missing _ 1 2 hsym (by decide) (by decide) (by decide)⟩

/-! ## Counterexamples to C3, C5, C7 as stated -/

/-- C3 counterexample: connected_components on the empty graph does not
return an empty partition; it raises StopIteration. -/
theorem claim3_counterexample :
    connected_components ([] : List (Nat × List Nat)) = none := rfl

/-- C5 counterexample: after add_edge([1, 2]), a second add_node(1) does
not leave the object unchanged: it resets graph[1] to [] and raises
IndexError inside _add_to_cc. -/
theorem claim5_counterexample :
    runOps [.addE 1 2] = .ok ⟨[(1, [2]), (2, [1])], [(0, [1, 2])]⟩ ∧
    addNode ⟨[(1, [2]), (2, [1])], [(0, [1, 2])]⟩ 1 =
      .error ⟨[(1, []), (2, [1])], [(0, [1, 2])]⟩ :=
  ⟨rfl, rfl⟩

/-- C7 counterexample: add_edge([1, 1]) puts 1 into its own adjacency
list. -/
theorem claim7_counterexample :
    runOps [.addE 1 1] = .ok ⟨[(1, [1])], [(0, [1, 1])]⟩ ∧
    1 ∈ adjOf [(1, [1])] 1 :=
  ⟨rfl, by decide⟩

/-! ## Reachability lemmas -/

theorem adj_iff_adjOf {g : List (Nat × List Nat)} {x y : Nat} :
    Adj g x y ↔ (x ∈ keysOf g ∧ y ∈ adjOf g x) := by
  constructor
  · rintro ⟨l, hl, hy⟩
    exact ⟨mem_keysOf_of_lookupD hl, by rw [adjOf, hl]; exact hy⟩
  · rintro ⟨hx, hy⟩
    obtain ⟨l, hl⟩ : ∃ l, lookupD g x = some l := by
      rcases ho : lookupD g x with _ | l
      · exact absurd ((lookupD_eq_none _ _).mp ho) (by simpa using hx)
      · exact ⟨l, rfl⟩
    rw [adjOf, hl] at hy
    exact ⟨l, hl, hy⟩

theorem adj_symm_of_WFGraph {g : List (Nat × List Nat)} (hg : WFGraph g) :
    ∀ x y, Adj g x y → Adj g y x := by
  rintro x y ⟨l, hl, hy⟩
  have hy' : y ∈ adjOf g x := by rw [adjOf, hl]; exact hy
  have hx' : x ∈ adjOf g y := hg.symm x y hy'
  have hyk : y ∈ keysOf g := hg.closed (x, l) (lookupD_mem hl) y hy
  exact adj_iff_adjOf.mpr ⟨hyk, hx'⟩

theorem adj_mem_keys {g : List (Nat × List Nat)} (hg : WFGraph g) {x y : Nat}
    (h : Adj g x y) : x ∈ keysOf g ∧ y ∈ keysOf g := by
  rcases h with ⟨l, hl, hy⟩
  exact ⟨mem_keysOf_of_lookupD hl, hg.closed (x, l) (lookupD_mem hl) y hy⟩

theorem reachable_symm {g : List (Nat × List Nat)} (hg : WFGraph g) :
    ∀ x y, Reachable g x y → Reachable g y x := fun _ _ h =>
  Relation.ReflTransGen.symmetric (fun a b hab => adj_symm_of_WFGraph hg a b hab) h

theorem reachable_mono {g g' : List (Nat × List Nat)}
    (h : ∀ x y, Adj g x y → Adj g' x y) :
    ∀ x y, Reachable g x y → Reachable g' x y := fun _ _ hr =>
  Relation.ReflTransGen.mono (fun {a b} hab => h a b hab) hr

theorem reachable_closed {g : List (Nat × List Nat)} {c : List Nat}
    (hc : ∀ z ∈ c, ∀ w, Adj g z w → w ∈ c) :
    ∀ x ∈ c, ∀ y, Reachable g x y → y ∈ c := by
  intro x hx y hr
  induction hr with
  | refl => exact hx
  | tail _ h2 ih => exact hc _ ih _ h2

/-! ## ccJoin lemmas -/

theorem mem_ccJoin {cc : List (Nat × List Nat)} {x : Nat} :
    x ∈ ccJoin cc ↔ ∃ e ∈ cc, x ∈ e.2 := by
  rw [ccJoin, List.mem_flatten]
  constructor
  · rintro ⟨l, hl, hx⟩
    rcases List.mem_map.mp hl with ⟨e, he, rfl⟩
    exact ⟨e, he, hx⟩
  · rintro ⟨e, he, hx⟩
    exact ⟨e.2, List.mem_map_of_mem Prod.snd he, hx⟩

theorem ccJoin_append (cc : List (Nat × List Nat)) (i : Nat) (c : List Nat) :
    ccJoin (cc ++ [(i, c)]) = ccJoin cc ++ c := by
  simp [ccJoin]

theorem dset_append_of_not_mem {α : Type} {d : List (Nat × α)} {k : Nat} (v : α)
    (h : k ∉ keysOf d) : dset d k v = d ++ [(k, v)] := by
  rw [dset, if_neg h]

/-! ## visited-dict lemmas -/

theorem anyUnvisited_of_lookup_false {visited : List (Nat × Bool)} {k : Nat}
    (h : lookupD visited k = some false) : anyUnvisited visited = true := by
  have hm := lookupD_mem h
  rw [anyUnvisited, List.any_eq_true]
  exact ⟨(k, false), hm, rfl⟩

theorem countFalse_cons (p : Nat × Bool) (v : List (Nat × Bool)) :
    countFalse (p :: v) = (if p.2 then 0 else 1) + countFalse v := by
  rcases p with ⟨k, b⟩
  cases b <;> simp [countFalse, List.filter_cons, Nat.add_comm]

theorem countFalse_mapReplace_le (v : List (Nat × Bool)) (k : Nat) :
    countFalse (v.map (fun p => if p.1 = k then (k, true) else p)) ≤ countFalse v := by
  induction v with
  | nil => simp [countFalse]
  | cons p rest ih =>
    rw [List.map_cons, countFalse_cons, countFalse_cons]
    by_cases hp : p.1 = k
    · rw [if_pos hp]
      have h1 : (if ((k, true) : Nat × Bool).2 = true then 0 else 1) = 0 := by simp
      rw [h1]
      omega
    · rw [if_neg hp]
      omega

theorem countFalse_dset_true_lt {visited : List (Nat × Bool)} {k : Nat}
    (h : lookupD visited k = some false) :
    countFalse (dset visited k true) < countFalse visited := by
  have hk : k ∈ keysOf visited := mem_keysOf_of_lookupD h
  rw [dset, if_pos hk]
  clear hk
  induction visited with
  | nil => simp [lookupD] at h
  | cons p rest ih =>
    rw [List.map_cons, countFalse_cons, countFalse_cons]
    by_cases hp : p.1 = k
    · rw [lookupD, if_pos hp] at h
      have hp2 : p.2 = false := by injection h
      rw [if_pos hp, hp2]
      have h1 : (if ((k, true) : Nat × Bool).2 = true then 0 else 1) = 0 := by simp
      have h2 : (if (false : Bool) = true then 0 else 1) = 1 := by simp
      rw [h1, h2]
      have := countFalse_mapReplace_le rest k
      omega
    · rw [lookupD, if_neg hp] at h
      rw [if_neg hp]
      have := ih h
      omega

theorem visited_all_true (visited : List (Nat × Bool))
    (hnd : (keysOf visited).Nodup)
    (h : ∀ k ∈ keysOf visited, lookupD visited k ≠ some false) :
    visited.all (fun p => p.2) = true := by
  rw [List.all_eq_true]
  rintro ⟨k, b⟩ hm
  have hl : lookupD visited k = some b := mem_lookupD hnd hm
  have hk : k ∈ keysOf visited := mem_keysOf_of_lookupD hl
  cases b
  · exact absurd hl (h k hk)
  · rfl

theorem lookupD_mapFalse (d : List (Nat × List Nat)) (z : Nat) :
    lookupD (d.map (fun p => (p.1, false))) z = (lookupD d z).map (fun _ => false) := by
  induction d with
  | nil => simp [lookupD]
  | cons p rest ih =>
    by_cases hp : p.1 = z <;> simp [lookupD, hp, ih]

theorem countFalse_mapFalse (d : List (Nat × List Nat)) :
    countFalse (d.map (fun p => (p.1, false))) = d.length := by
  induction d with
  | nil => simp [countFalse]
  | cons p rest ih =>
    rw [List.map_cons, countFalse_cons]
    have h1 : (if ((p.1, false) : Nat × Bool).2 = true then 0 else 1) = 1 := by simp
    rw [h1, ih, List.length_cons]
    omega

/-! ## Inner-loop lemmas of connected_components -/

theorem filterUnvisited_sound (visited : List (Nat × Bool)) :
    ∀ l : List Nat, (∀ x ∈ l, (lookupD visited x).isSome) →
    ∃ r, filterUnvisited visited l = some r ∧
      (∀ x, x ∈ r ↔ x ∈ l ∧ lookupD visited x = some false) := by
  intro l
  induction l with
  | nil =>
    intro _
    exact ⟨[], rfl, by simp⟩
  | cons x xs ih =>
    intro hl
    obtain ⟨b, hb⟩ : ∃ b, lookupD visited x = some b := by
      rcases ho : lookupD visited x with _ | b
      · have := hl x (List.mem_cons_self _ _)
        rw [ho] at this
        exact absurd this (by simp)
      · exact ⟨b, rfl⟩
    obtain ⟨r, hr, hri⟩ := ih (fun y hy => hl y (List.mem_cons_of_mem _ hy))
    cases b
    · refine ⟨x :: r, ?_, ?_⟩
      · rw [filterUnvisited, hb, hr]
        rfl
      · intro z
        rw [List.mem_cons, List.mem_cons]
        by_cases hz : z = x
        · subst hz
          constructor
          · intro _
            exact ⟨Or.inl rfl, hb⟩
          · intro _
            exact Or.inl rfl
        · constructor
          · rintro (he | hz')
            · exact absurd he hz
            · have := (hri z).mp hz'
              exact ⟨Or.inr this.1, this.2⟩
          · rintro ⟨he | hz', hlz⟩
            · exact absurd he hz
            · exact Or.inr ((hri z).mpr ⟨hz', hlz⟩)
    · refine ⟨r, ?_, ?_⟩
      · rw [filterUnvisited, hb, hr]
        rfl
      · intro z
        rw [hri z, List.mem_cons]
        constructor
        · rintro ⟨hz', hlz⟩
          exact ⟨Or.inr hz', hlz⟩
        · rintro ⟨he | hz', hlz⟩
          · subst he
            rw [hb] at hlz
            exact absurd hlz (by simp)
          · exact ⟨hz', hlz⟩

theorem ccInner_sound (visited : List (Nat × Bool)) :
    ∀ (queue : List Nat) (sv : Nat),
    (lookupD visited sv).isSome → (∀ u ∈ queue, (lookupD visited u).isSome) →
    ∃ sv2 queue2, ccInner visited sv queue = some (sv2, queue2) ∧
      (sv2 = sv ∨ sv2 ∈ queue) ∧
      (∀ u ∈ queue2, u ∈ queue) ∧
      (∀ u ∈ queue, u ∈ queue2 ∨ u = sv2 ∨ lookupD visited u = some true) ∧
      (sv = sv2 ∨ lookupD visited sv = some true) ∧
      (lookupD visited sv2 = some false ∨
        (queue2 = [] ∧ lookupD visited sv2 = some true)) := by
  intro queue
  induction queue with
  | nil =>
    intro sv hsv _
    obtain ⟨b, hb⟩ : ∃ b, lookupD visited sv = some b := by
      rcases ho : lookupD visited sv with _ | b
      · rw [ho] at hsv
        exact absurd hsv (by simp)
      · exact ⟨b, rfl⟩
    refine ⟨sv, [], ?_, Or.inl rfl, by simp, by simp, Or.inl rfl, ?_⟩
    · cases b <;> rw [ccInner, hb] <;> rfl
    · cases b
      · exact Or.inl hb
      · exact Or.inr ⟨rfl, hb⟩
  | cons q rest ih =>
    intro sv hsv hq
    obtain ⟨b, hb⟩ : ∃ b, lookupD visited sv = some b := by
      rcases ho : lookupD visited sv with _ | b
      · rw [ho] at hsv
        exact absurd hsv (by simp)
      · exact ⟨b, rfl⟩
    cases b
    · refine ⟨sv, q :: rest, ?_, Or.inl rfl, fun u hu => hu, fun u hu => Or.inl hu,
        Or.inl rfl, Or.inl hb⟩
      rw [ccInner, hb]
      rfl
    · have hqh : (lookupD visited q).isSome := hq q (List.mem_cons_self _ _)
      obtain ⟨sv2, queue2, hrec, hmem, hsub, hcases, hfive, hdich⟩ :=
        ih q hqh (fun u hu => hq u (List.mem_cons_of_mem _ hu))
      refine ⟨sv2, queue2, ?_, ?_, ?_, ?_, Or.inr hb, hdich⟩
      · rw [ccInner, hb]
        simpa using hrec
      · rcases hmem with he | hm
        · refine Or.inr ?_
          rw [he]
          exact List.mem_cons_self _ _
        · exact Or.inr (List.mem_cons_of_mem _ hm)
      · exact fun u hu => List.mem_cons_of_mem _ (hsub u hu)
      · intro u hu
        rcases List.mem_cons.mp hu with he | hm
        · subst he
          rcases hfive with he' | htr
          · exact Or.inr (Or.inl he')
          · exact Or.inr (Or.inr htr)
        · rcases hcases u hm with h | h | h
          · exact Or.inl h
          · exact Or.inr (Or.inl h)
          · exact Or.inr (Or.inr h)

/-! ## Soundness of the component search -/

theorem ccOuterF_sound (g : List (Nat × List Nat)) (hg : WFGraph g) :
    ∀ fuel visited cc idx component queue sv,
    CCInv g visited cc idx component queue sv →
    countFalse visited < fuel →
    ∃ out, ccOuterF g fuel visited cc idx component queue sv = some out ∧ CCPost g out := by
  intro fuel
  induction fuel with
  | zero =>
    intro visited _ _ _ _ _ _ hfuel
    exact absurd hfuel (Nat.not_lt_zero _)
  | succ n ih =>
    intro visited cc idx component queue sv hinv hfuel
    have hany : anyUnvisited visited = true := anyUnvisited_of_lookup_false hinv.svmem
    have hsvkV : sv ∈ keysOf visited := mem_keysOf_of_lookupD hinv.svmem
    have hsvk : sv ∈ keysOf g := by rw [← hinv.vkeys]; exact hsvkV
    obtain ⟨nbrs, hnbrs⟩ : ∃ nbrs, lookupD g sv = some nbrs := by
      rcases ho : lookupD g sv with _ | nbrs
      · exact absurd ((lookupD_eq_none _ _).mp ho) (by simpa using hsvk)
      · exact ⟨nbrs, rfl⟩
    have hnbrsK : ∀ y ∈ nbrs, y ∈ keysOf g :=
      fun y hy => hg.closed (sv, nbrs) (lookupD_mem hnbrs) y hy
    have hlv' : ∀ z, lookupD (dset visited sv true) z =
        if z = sv then some true else lookupD visited z :=
      fun z => lookupD_dset visited sv z true
    have hkv' : keysOf (dset visited sv true) = keysOf g := by
      rw [keysOf_dset, if_pos hsvkV, hinv.vkeys]
    have hcf : countFalse (dset visited sv true) < n := by
      have h1 := countFalse_dset_true_lt hinv.svmem
      omega
    have hsvnc : sv ∉ component := by
      intro hc
      have h1 := hinv.compV sv hc
      rw [hinv.svmem] at h1
      exact absurd h1 (by simp)
    have hsvnj : sv ∉ ccJoin cc := by
      intro hj
      have h1 := (hinv.trueIff sv).mpr (Or.inl hj)
      rw [hinv.svmem] at h1
      exact absurd h1 (by simp)
    have hcompV' : ∀ x ∈ component ++ [sv], lookupD (dset visited sv true) x = some true := by
      intro x hx
      rw [hlv']
      by_cases hxs : x = sv
      · rw [if_pos hxs]
      · rw [if_neg hxs]
        rcases List.mem_append.mp hx with h1 | h1
        · exact hinv.compV x h1
        · rw [List.mem_singleton] at h1
          exact absurd h1 hxs
    have htrueIff' : ∀ z, lookupD (dset visited sv true) z = some true ↔
        (z ∈ ccJoin cc ∨ z ∈ component ++ [sv]) := by
      intro z
      rw [hlv']
      by_cases hz : z = sv
      · rw [if_pos hz, hz]
        simp [List.mem_append]
      · rw [if_neg hz, hinv.trueIff z]
        simp only [List.mem_append, List.mem_singleton]
        constructor
        · rintro (h | h)
          · exact Or.inl h
          · exact Or.inr (Or.inl h)
        · rintro (h | h | h)
          · exact Or.inl h
          · exact Or.inr h
          · exact absurd h hz
    have hnd' : (ccJoin cc ++ (component ++ [sv])).Nodup := by
      rw [← List.append_assoc]
      have h1 : sv ∉ ccJoin cc ++ component := by
        rw [List.mem_append]
        rintro (h | h)
        exacts [hsvnj h, hsvnc h]
      rw [List.nodup_append]
      refine ⟨hinv.nd, List.nodup_singleton sv, ?_⟩
      intro a ha hb
      rw [List.mem_singleton] at hb
      subst hb
      exact h1 ha
    obtain ⟨fresh, hfresh, hfreshIff⟩ := filterUnvisited_sound (dset visited sv true) nbrs
      (fun y hy => by rw [lookupD_isSome, hkv']; exact hnbrsK y hy)
    have hq1K : ∀ u ∈ queue ++ fresh, u ∈ keysOf g := by
      intro u hu
      rcases List.mem_append.mp hu with h | h
      · exact hinv.qK u h
      · exact hnbrsK u ((hfreshIff u).mp h).1
    have hq1Adj : ∀ u ∈ queue ++ fresh, ∃ m ∈ component ++ [sv], Adj g m u := by
      intro u hu
      rcases List.mem_append.mp hu with h | h
      · obtain ⟨m, hm, hadj⟩ := hinv.qAdj u h
        exact ⟨m, List.mem_append_left _ hm, hadj⟩
      · exact ⟨sv, List.mem_append_right _ (List.mem_singleton_self sv),
          ⟨nbrs, hnbrs, ((hfreshIff u).mp h).1⟩⟩
    have hfront' : ∀ x ∈ component ++ [sv], ∀ y, Adj g x y →
        lookupD (dset visited sv true) y = some true ∨ y ∈ queue ++ fresh ∨ y = sv := by
      intro x hx y hadj
      rcases List.mem_append.mp hx with h1 | h1
      · rcases hinv.frontier x h1 y hadj with h | h | h
        · left
          rw [hlv']
          by_cases hy : y = sv
          · rw [if_pos hy]
          · rw [if_neg hy]
            exact h
        · right
          left
          exact List.mem_append_left _ h
        · right
          right
          exact h
      · rw [List.mem_singleton] at h1
        rw [h1] at hadj
        obtain ⟨l, hl, hy⟩ := hadj
        rw [hnbrs] at hl
        injection hl with hl
        subst hl
        have hyK : y ∈ keysOf g := hnbrsK y hy
        obtain ⟨b, hb⟩ : ∃ b, lookupD (dset visited sv true) y = some b := by
          rcases ho : lookupD (dset visited sv true) y with _ | b
          · exact absurd ((lookupD_eq_none _ _).mp ho) (by rw [hkv']; simpa using hyK)
          · exact ⟨b, rfl⟩
        cases b
        · right
          left
          exact List.mem_append_right _ ((hfreshIff y).mpr ⟨hy, hb⟩)
        · left
          exact hb
    have hreach' : ∀ x ∈ component ++ [sv], Reachable g x sv := by
      intro x hx
      rcases List.mem_append.mp hx with h1 | h1
      · exact hinv.reach x h1
      · rw [List.mem_singleton] at h1
        rw [h1]
        exact Relation.ReflTransGen.refl
    obtain ⟨sv2, queue2, hcI, hsv2mem, hq2sub, hqcases, _, hdich⟩ :=
      ccInner_sound (dset visited sv true) (queue ++ fresh) sv
        (by rw [lookupD_isSome, hkv']; exact hsvk)
        (fun u hu => by rw [lookupD_isSome, hkv']; exact hq1K u hu)
    have hsv2K : sv2 ∈ keysOf g := by
      rcases hsv2mem with he | hm
      · rw [he]
        exact hsvk
      · exact hq1K sv2 hm
    have hfront'' : ∀ x ∈ component ++ [sv], ∀ y, Adj g x y →
        lookupD (dset visited sv true) y = some true ∨ y ∈ queue2 ∨ y = sv2 := by
      intro x hx y hadj
      rcases hfront' x hx y hadj with h | h | h
      · exact Or.inl h
      · rcases hqcases y h with h1 | h1 | h1
        · exact Or.inr (Or.inl h1)
        · exact Or.inr (Or.inr h1)
        · exact Or.inl h1
      · left
        rw [h, hlv', if_pos rfl]
    have hreach2 : ∀ x ∈ component ++ [sv], Reachable g x sv2 := by
      rcases hsv2mem with he | hm
      · intro x hx
        rw [he]
        exact hreach' x hx
      · obtain ⟨m, hmm, hmadj⟩ := hq1Adj sv2 hm
        intro x hx
        have h1 : Reachable g x sv := hreach' x hx
        have h2 : Reachable g m sv := hreach' m hmm
        have h3 : Reachable g sv m := reachable_symm hg _ _ h2
        exact Relation.ReflTransGen.tail (Relation.ReflTransGen.trans h1 h3) hmadj
    have hq2K : ∀ u ∈ queue2, u ∈ keysOf g := fun u hu => hq1K u (hq2sub u hu)
    have hq2Adj : ∀ u ∈ queue2, ∃ m ∈ component ++ [sv], Adj g m u :=
      fun u hu => hq1Adj u (hq2sub u hu)
    simp only [ccOuterF, hany, eq_self_iff_true, if_true, hnbrs, hfresh, hcI]
    rcases hdich with hfalse | ⟨hq2nil, htrue⟩
    · have hcond : ¬(queue2 = [] ∧ lookupD (dset visited sv true) sv2 = some true) := by
        rintro ⟨_, h⟩
        rw [hfalse] at h
        exact absurd h (by simp)
      rw [if_neg hcond]
      refine ih (dset visited sv true) cc idx (component ++ [sv]) queue2 sv2 ?_ hcf
      exact {
        vkeys := hkv'
        svmem := hfalse
        compV := hcompV'
        trueIff := htrueIff'
        nd := hnd'
        qK := hq2K
        qAdj := hq2Adj
        frontier := hfront''
        reach := hreach2
        fin := hinv.fin
        ccidx := hinv.ccidx }
    · have hcond : queue2 = [] ∧ lookupD (dset visited sv true) sv2 = some true :=
        ⟨hq2nil, htrue⟩
      rw [if_pos hcond]
      have hfrontT : ∀ x ∈ component ++ [sv], ∀ y, Adj g x y →
          lookupD (dset visited sv true) y = some true := by
        intro x hx y hadj
        rcases hfront'' x hx y hadj with h | h | h
        · exact h
        · rw [hq2nil] at h
          simp at h
        · rw [h]
          exact htrue
      have hcls'' : ∀ x ∈ component ++ [sv], ∀ y, Adj g x y → y ∈ component ++ [sv] := by
        intro x hx y hadj
        rcases (htrueIff' y).mp (hfrontT x hx y hadj) with hj | hc
        · exfalso
          rcases mem_ccJoin.mp hj with ⟨e, he, hye⟩
          have hyx : Adj g y x := adj_symm_of_WFGraph hg x y hadj
          have hxe : x ∈ e.2 := (hinv.fin e he).2.1 y hye x hyx
          have hxj : x ∈ ccJoin cc := mem_ccJoin.mpr ⟨e, he, hxe⟩
          exact (List.disjoint_of_nodup_append hnd') hxj hx
        · exact hc
      have hconn'' : ∀ x ∈ component ++ [sv], ∀ y ∈ component ++ [sv], Reachable g x y := by
        intro x hx y hy
        exact Relation.ReflTransGen.trans (hreach2 x hx)
          (reachable_symm hg _ _ (hreach2 y hy))
      have hidxnm : idx ∉ keysOf cc := by
        rw [keysOf, hinv.ccidx]
        simp
      have hccset : dset cc idx (component ++ [sv]) = cc ++ [(idx, component ++ [sv])] :=
        dset_append_of_not_mem _ hidxnm
      have hccJ : ccJoin (dset cc idx (component ++ [sv])) =
          ccJoin cc ++ (component ++ [sv]) := by
        rw [hccset, ccJoin_append]
      have hfin' : ∀ e ∈ dset cc idx (component ++ [sv]),
          e.2 ≠ [] ∧ (∀ x ∈ e.2, ∀ y, Adj g x y → y ∈ e.2) ∧
          (∀ x ∈ e.2, ∀ y ∈ e.2, Reachable g x y) := by
        rw [hccset]
        intro e he
        rcases List.mem_append.mp he with h | h
        · exact hinv.fin e h
        · rw [List.mem_singleton] at h
          subst h
          exact ⟨by simp, hcls'', hconn''⟩
      have hccidx' : (dset cc idx (component ++ [sv])).map Prod.fst =
          List.range (idx + 1) := by
        rw [hccset, List.map_append, hinv.ccidx, List.range_succ]
        rfl
      rcases hfind : (keysOf g).find?
          (fun k => lookupD (dset visited sv true) k == some false) with _ | sv3
      · have hnone := List.find?_eq_none.mp hfind
        have hkeysT : ∀ k ∈ keysOf g, lookupD (dset visited sv true) k ≠ some false := by
          intro k hk hc
          have h1 := hnone k hk
          rw [hc] at h1
          simp at h1
        have hall : (dset visited sv true).all (fun p => p.2) = true := by
          apply visited_all_true
          · rw [hkv']
            exact hg.knd
          · rw [hkv']
            exact hkeysT
        simp only [hfind, hall, if_true]
        refine ⟨dset cc idx (component ++ [sv]), rfl, ?_, ?_, ?_, ?_, ?_, ?_⟩
        · rw [hccidx', hccset, List.length_append]
          have hlen : cc.length = idx := by
            have h1 := congrArg List.length hinv.ccidx
            simpa using h1
          rw [hlen]
          rfl
        · rw [hccJ]
          exact hnd'
        · intro x
          rw [hccJ]
          constructor
          · intro hx
            rw [List.mem_append] at hx
            have hT : lookupD (dset visited sv true) x = some true := (htrueIff' x).mpr hx
            have h1 := mem_keysOf_of_lookupD hT
            rwa [hkv'] at h1
          · intro hx
            obtain ⟨b, hb⟩ : ∃ b, lookupD (dset visited sv true) x = some b := by
              rcases ho : lookupD (dset visited sv true) x with _ | b
              · exact absurd ((lookupD_eq_none _ _).mp ho) (by rw [hkv']; simpa using hx)
              · exact ⟨b, rfl⟩
            cases b
            · exact absurd hb (hkeysT x hx)
            · rw [List.mem_append]
              exact (htrueIff' x).mp hb
        · intro e he
          exact (hfin' e he).1
        · intro e he
          exact (hfin' e he).2.1
        · intro e he
          exact (hfin' e he).2.2
      · have hsv3K : sv3 ∈ keysOf g := List.mem_of_find?_eq_some hfind
        have hsv3F : lookupD (dset visited sv true) sv3 = some false := by
          have h1 := List.find?_some hfind
          simpa using h1
        simp only [hfind]
        refine ih (dset visited sv true) (dset cc idx (component ++ [sv])) (idx + 1)
          [] queue2 sv3 ?_ hcf
        refine {
          vkeys := hkv'
          svmem := hsv3F
          compV := by
            intro x hx
            simp at hx
          trueIff := ?_
          nd := by
            rw [List.append_nil, hccJ]
            exact hnd'
          qK := by
            intro u hu
            rw [hq2nil] at hu
            simp at hu
          qAdj := by
            intro u hu
            rw [hq2nil] at hu
            simp at hu
          frontier := by
            intro x hx
            simp at hx
          reach := by
            intro x hx
            simp at hx
          fin := hfin'
          ccidx := hccidx' }
        intro z
        rw [htrueIff' z, hccJ]
        simp [List.mem_append]

theorem connected_components_sound (g : List (Nat × List Nat)) (hg : WFGraph g)
    (hne : g ≠ []) :
    ∃ out, connected_components g = some out ∧ CCPost g out := by
  obtain ⟨p, grest, hge⟩ : ∃ p grest, g = p :: grest := by
    rcases g with _ | ⟨p, grest⟩
    · exact absurd rfl hne
    · exact ⟨p, grest, rfl⟩
  have hkeys : keysOf g = p.1 :: keysOf grest := by
    rw [hge]
    rfl
  have hinit : CCInv g (g.map (fun q => (q.1, false))) [] 0 [] [] p.1 := by
    refine {
      vkeys := by simp [keysOf, List.map_map, Function.comp]
      svmem := by
        rw [hge]
        simp [lookupD]
      compV := by
        intro x hx
        simp at hx
      trueIff := ?_
      nd := by simp [ccJoin]
      qK := by
        intro u hu
        simp at hu
      qAdj := by
        intro u hu
        simp at hu
      frontier := by
        intro x hx
        simp at hx
      reach := by
        intro x hx
        simp at hx
      fin := by
        intro e he
        simp at he
      ccidx := by simp }
    intro x
    rw [lookupD_mapFalse]
    rcases lookupD g x with _ | v <;> simp [ccJoin]
  have hfuel : countFalse (g.map (fun q => (q.1, false))) < g.length + 1 := by
    rw [countFalse_mapFalse]
    omega
  obtain ⟨out, hout, hpost⟩ :=
    ccOuterF_sound g hg (g.length + 1) (g.map (fun q => (q.1, false))) [] 0 [] [] p.1
      hinit hfuel
  refine ⟨out, ?_, hpost⟩
  rw [connected_components, hkeys]
  exact hout

/-- C2: on a non-empty symmetric graph dictionary whose adjacency lists
contain only keys, connected_components returns a partition of the key
set: the membership lists jointly contain every key exactly once, and
each list is a maximal mutually-reachable set. -/
theorem claim2_connected_components (g : List (Nat × List Nat))
    (hnd : (keysOf g).Nodup) (hne : g ≠ [])
    (hclosed : ∀ p ∈ g, ∀ y ∈ p.2, y ∈ keysOf g)
    (hsym : ∀ x y, y ∈ adjOf g x → x ∈ adjOf g y) :
    ∃ out, connected_components g = some out ∧
      (ccJoin out).Nodup ∧
      (∀ x, x ∈ ccJoin out ↔ x ∈ keysOf g) ∧
      (∀ c ∈ out.map Prod.snd, ∀ x ∈ c, ∀ y, (Reachable g x y ↔ y ∈ c)) := by
  obtain ⟨out, hout, hpost⟩ := connected_components_sound g ⟨hnd, hclosed, hsym⟩ hne
  obtain ⟨_, hjnd, hcov, _, hcls, hconn⟩ := hpost
  refine ⟨out, hout, hjnd, hcov, ?_⟩
  intro c hc x hx y
  rcases List.mem_map.mp hc with ⟨e, he, rfl⟩
  constructor
  · intro hr
    exact reachable_closed (hcls e he) x hx y hr
  · intro hy
    exact hconn e he x hx y hy

theorem claim2_witness :
    (keysOf ([(1, [2]), (2, [1]), (5, [])] : List (Nat × List Nat))).Nodup ∧
    (([(1, [2]), (2, [1]), (5, [])] : List (Nat × List Nat)) ≠ []) ∧
    (∀ p ∈ ([(1, [2]), (2, [1]), (5, [])] : List (Nat × List Nat)), ∀ y ∈ p.2,
      y ∈ keysOf ([(1, [2]), (2, [1]), (5, [])] : List (Nat × List Nat))) ∧
    (∃ out, connected_components ([(1, [2]), (2, [1]), (5, [])] : List (Nat × List Nat)) =
        some out ∧
      (ccJoin out).Nodup ∧
      (∀ x, x ∈ ccJoin out ↔
        x ∈ keysOf ([(1, [2]), (2, [1]), (5, [])] : List (Nat × List Nat))) ∧
      (∀ c ∈ out.map Prod.snd, ∀ x ∈ c, ∀ y,
        (Reachable [(1, [2]), (2, [1]), (5, [])] x y ↔ y ∈ c))) := by
  refine ⟨by decide, by decide, by decide, ?_⟩
  apply claim2_connected_components
  · decide
  · decide
  · decide
  · intro x y hy
    rw [adjOf] at hy ⊢
    rcases ho : lookupD ([(1, [2]), (2, [1]), (5, [])] : List (Nat × List Nat)) x with _ | l
    · rw [ho] at hy
      simp at hy
    · rw [ho] at hy
      have hm := lookupD_mem ho
      simp at hm
      rcases hm with ⟨hx, hl⟩ | ⟨hx, hl⟩ | ⟨hx, hl⟩ <;> subst hl <;> subst hx <;>
        simp at hy <;> subst hy <;> simp [lookupD]

/-! ## _add_to_cc analysis -/

theorem ccLookup_mem {cc : List (Nat × List Nat)} {x i : Nat}
    (h : ccLookup cc x = some i) : ∃ c, (i, c) ∈ cc ∧ x ∈ c := by
  induction cc with
  | nil => simp [ccLookup] at h
  | cons p rest ih =>
    rw [ccLookup] at h
    rcases ho : ccLookup rest x with _ | j
    · rw [ho] at h
      by_cases hp : x ∈ p.2
      · rw [if_pos hp] at h
        injection h with h
        refine ⟨p.2, ?_, hp⟩
        rw [← h]
        exact List.mem_cons_self _ _
      · rw [if_neg hp] at h
        exact absurd h (by simp)
    · rw [ho] at h
      injection h with h
      subst h
      obtain ⟨c, hc, hx⟩ := ih ho
      exact ⟨c, List.mem_cons_of_mem _ hc, hx⟩

theorem ccLookup_eq_none_iff (cc : List (Nat × List Nat)) (x : Nat) :
    ccLookup cc x = none ↔ ∀ e ∈ cc, x ∉ e.2 := by
  induction cc with
  | nil => simp [ccLookup]
  | cons p rest ih =>
    rw [ccLookup]
    rcases ho : ccLookup rest x with _ | i
    · have hrest : ∀ e ∈ rest, x ∉ e.2 := ih.mp ho
      by_cases hp : x ∈ p.2
      · rw [if_pos hp]
        constructor
        · intro h
          exact absurd h (by simp)
        · intro h
          exact absurd hp (h p (List.mem_cons_self _ _))
      · rw [if_neg hp]
        constructor
        · intro _ e he
          rcases List.mem_cons.mp he with h1 | h1
          · rw [h1]
            exact hp
          · exact hrest e h1
        · intro _
          rfl
    · obtain ⟨c, hc, hx⟩ := ccLookup_mem ho
      constructor
      · intro h
        exact absurd h (by simp)
      · intro h
        exact absurd hx (h (i, c) (List.mem_cons_of_mem _ hc))

theorem ccLookup_unique {cc : List (Nat × List Nat)} {x i : Nat} {c : List Nat}
    (hdis : cc.Pairwise (fun e1 e2 => ∀ z, z ∈ e1.2 → z ∉ e2.2))
    (hmem : (i, c) ∈ cc) (hx : x ∈ c) : ccLookup cc x = some i := by
  induction cc with
  | nil => simp at hmem
  | cons p rest ih =>
    rw [List.pairwise_cons] at hdis
    rw [ccLookup]
    rcases List.mem_cons.mp hmem with h1 | h1
    · have hxp : x ∈ p.2 := by
        rw [← h1]
        exact hx
      have hrest : ccLookup rest x = none := by
        rw [ccLookup_eq_none_iff]
        intro e he hxe
        exact hdis.1 e he x hxp hxe
      simp only [hrest, if_pos hxp, ← h1]
      rw [if_pos hx]
    · simp only [ih hdis.2 h1]

theorem buildMap_single (cc : List (Nat × List Nat)) (x : Nat) :
    buildMap cc [x] = match ccLookup cc x with
      | some i => [(x, i)]
      | none => [] := by
  rw [buildMap, List.foldl_cons, List.foldl_nil]
  rcases ccLookup cc x with _ | i
  · rfl
  · rfl

theorem buildMap_pair_ne (cc : List (Nat × List Nat)) {a b : Nat} (hab : a ≠ b)
    {ia ib : Nat} (ha : ccLookup cc a = some ia) (hb : ccLookup cc b = some ib) :
    buildMap cc [a, b] = [(a, ia), (b, ib)] := by
  rw [buildMap, List.foldl_cons, List.foldl_cons, List.foldl_nil]
  simp only [ha, hb]
  have h1 : dset ([] : List (Nat × Nat)) a ia = [(a, ia)] := rfl
  rw [h1, dset]
  have h2 : b ∉ keysOf [(a, ia)] := by
    intro hm
    rw [keysOf] at hm
    simp at hm
    exact hab hm.symm
  rw [if_neg h2]
  rfl

theorem buildMap_pair_same (cc : List (Nat × List Nat)) (a : Nat)
    {ia : Nat} (ha : ccLookup cc a = some ia) :
    buildMap cc [a, a] = [(a, ia)] := by
  rw [buildMap, List.foldl_cons, List.foldl_cons, List.foldl_nil]
  simp only [ha]
  have h1 : dset ([] : List (Nat × Nat)) a ia = [(a, ia)] := rfl
  rw [h1]
  simp [dset, keysOf]

theorem buildMap_pair_none (cc : List (Nat × List Nat)) (a b : Nat)
    (ha : ccLookup cc a = none) (hb : ccLookup cc b = none) :
    buildMap cc [a, b] = [] := by
  rw [buildMap, List.foldl_cons, List.foldl_cons, List.foldl_nil]
  simp only [ha, hb]

theorem le_maxKey {cc : List (Nat × List Nat)} {k : Nat} (h : k ∈ keysOf cc) :
    k ≤ maxKey cc := by
  induction cc with
  | nil => simp [keysOf] at h
  | cons p rest ih =>
    rw [maxKey]
    rw [keysOf, List.map_cons, List.mem_cons] at h
    rcases h with h | h
    · rw [h]
      exact le_max_left _ _
    · exact le_trans (ih (by rw [keysOf]; exact h)) (le_max_right _ _)

theorem freshKey_not_mem (cc : List (Nat × List Nat)) :
    (if cc = [] then 0 else maxKey cc + 1) ∉ keysOf cc := by
  by_cases hcc : cc = []
  · rw [hcc]
    simp [keysOf]
  · rw [if_neg hcc]
    intro hmem
    have h2 := le_maxKey hmem
    omega

/-- add_node on an id lying in no component: the graph entry is reset and a
fresh singleton component is appended. -/
theorem addNode_fresh {g cc : List (Nat × List Nat)} {x : Nat}
    (h : ∀ e ∈ cc, x ∉ e.2) :
    addNode ⟨g, cc⟩ x =
      .ok ⟨dset g x [], cc ++ [(if cc = [] then 0 else maxKey cc + 1, [x])]⟩ := by
  have hcl : ccLookup cc x = none := (ccLookup_eq_none_iff cc x).mpr h
  have hbm : buildMap cc [x] = [] := by
    rw [buildMap_single, hcl]
  rw [addNode, addToCC]
  simp only [hbm, dset_append_of_not_mem _ (freshKey_not_mem cc)]

/-- add_node on an id lying in a component raises IndexError inside
_add_to_cc after resetting the graph entry. -/
theorem addNode_present_err {g cc : List (Nat × List Nat)} {x i : Nat}
    (h : ccLookup cc x = some i) :
    addNode ⟨g, cc⟩ x = .error ⟨dset g x [], cc⟩ := by
  have hbm : buildMap cc [x] = [(x, i)] := by
    rw [buildMap_single, h]
  have hro : returnOtherL [x] x = none := by
    rw [returnOtherL]
    simp
  rw [addNode, addToCC]
  simp only [hbm, hro]

/-! ## From the search postcondition to cc well-formedness -/

theorem pairwise_disjoint_of_ccJoin_nodup {cc : List (Nat × List Nat)}
    (h : (ccJoin cc).Nodup) :
    cc.Pairwise (fun e1 e2 => ∀ x, x ∈ e1.2 → x ∉ e2.2) := by
  induction cc with
  | nil => exact List.Pairwise.nil
  | cons p rest ih =>
    have hj : ccJoin (p :: rest) = p.2 ++ ccJoin rest := by
      simp [ccJoin]
    rw [hj, List.nodup_append] at h
    rw [List.pairwise_cons]
    constructor
    · intro e he x hxp hxe
      exact h.2.2 hxp (mem_ccJoin.mpr ⟨e, he, hxe⟩)
    · exact ih h.2.1

theorem WFcc_of_CCPost {g out : List (Nat × List Nat)} (hpost : CCPost g out) :
    WFcc g out := by
  obtain ⟨hidx, hjnd, hcov, hcne, hcls, hconn⟩ := hpost
  refine {
    knd := ?_
    cne := hcne
    sub := ?_
    cov := ?_
    dis := pairwise_disjoint_of_ccJoin_nodup hjnd
    conn := hconn
    cls := hcls }
  · rw [keysOf, hidx]
    exact List.nodup_range _
  · intro e he x hx
    exact (hcov x).mp (mem_ccJoin.mpr ⟨e, he, hx⟩)
  · intro x hx
    exact mem_ccJoin.mp ((hcov x).mpr hx)

/-! ## del_node graph mutation -/

theorem delGraph_eq_mapVal (g : List (Nat × List Nat)) (x : Nat) :
    delGraph g x =
      (dpop g x).map (fun p => (p.1, if x ∈ p.2 then p.2.erase x else p.2)) := by
  rw [delGraph]
  apply List.map_congr_left
  intro p _
  by_cases hp : x ∈ p.2 <;> simp [hp]

theorem lookupD_mapVal (F : List Nat → List Nat) (d : List (Nat × List Nat)) (z : Nat) :
    lookupD (d.map (fun p => (p.1, F p.2))) z = (lookupD d z).map F := by
  induction d with
  | nil => simp [lookupD]
  | cons p rest ih =>
    by_cases hp : p.1 = z <;> simp [lookupD, hp, ih]

theorem keysOf_mapVal (F : List Nat → List Nat) (d : List (Nat × List Nat)) :
    keysOf (d.map (fun p => (p.1, F p.2))) = keysOf d := by
  simp [keysOf, List.map_map, Function.comp]

theorem keysOf_delGraph (g : List (Nat × List Nat)) (x : Nat) :
    keysOf (delGraph g x) = (keysOf g).erase x := by
  rw [delGraph_eq_mapVal,
    keysOf_mapVal (fun l => if x ∈ l then l.erase x else l) (dpop g x), keysOf_dpop]

theorem lookupD_delGraph (g : List (Nat × List Nat)) (hnd : (keysOf g).Nodup)
    (x z : Nat) :
    lookupD (delGraph g x) z =
      if z = x then none
      else (lookupD g z).map (fun l => if x ∈ l then l.erase x else l) := by
  rw [delGraph_eq_mapVal,
    lookupD_mapVal (fun l => if x ∈ l then l.erase x else l) (dpop g x) z]
  by_cases hz : z = x
  · rw [if_pos hz, hz, lookupD_dpop_self g x hnd]
    rfl
  · rw [if_neg hz, lookupD_dpop_ne g hz]

theorem delGraph_WF {g : List (Nat × List Nat)} (hg : WFGraph g)
    (hvnd : ∀ p ∈ g, p.2.Nodup) (x : Nat) :
    WFGraph (delGraph g x) ∧ (∀ p ∈ delGraph g x, p.2.Nodup) := by
  have hke : keysOf (delGraph g x) = (keysOf g).erase x := keysOf_delGraph g x
  have hlk := lookupD_delGraph g hg.knd x
  have hvnd2 : ∀ p ∈ delGraph g x, p.2.Nodup := by
    intro p hp
    rw [delGraph] at hp
    rcases List.mem_map.mp hp with ⟨q, hq, rfl⟩
    have hqn : q.2.Nodup := hvnd q (mem_dpop hq)
    by_cases hx : x ∈ q.2
    · rw [if_pos hx]
      exact hqn.erase x
    · rw [if_neg hx]
      exact hqn
  have hmemF : ∀ (l : List Nat), l.Nodup → ∀ v,
      (v ∈ (if x ∈ l then l.erase x else l) ↔ (v ∈ l ∧ v ≠ x)) := by
    intro l hl v
    by_cases hx : x ∈ l
    · rw [if_pos hx, List.Nodup.mem_erase_iff hl]
      tauto
    · rw [if_neg hx]
      constructor
      · intro hv
        refine ⟨hv, ?_⟩
        intro he
        rw [he] at hv
        exact hx hv
      · exact fun h => h.1
  refine ⟨⟨?_, ?_, ?_⟩, hvnd2⟩
  · rw [hke]
    exact hg.knd.erase x
  · intro p hp y hy
    rw [delGraph] at hp
    rcases List.mem_map.mp hp with ⟨q, hq, rfl⟩
    have hqg : q ∈ g := mem_dpop hq
    have hqn : q.2.Nodup := hvnd q hqg
    have h1 : y ∈ q.2 ∧ y ≠ x := by
      by_cases hx : x ∈ q.2
      · rw [if_pos hx] at hy
        have := (List.Nodup.mem_erase_iff hqn).mp hy
        exact ⟨this.2, this.1⟩
      · rw [if_neg hx] at hy
        refine ⟨hy, ?_⟩
        intro he
        rw [he] at hy
        exact hx hy
    have h2 : y ∈ keysOf g := hg.closed q hqg y h1.1
    rw [hke]
    exact List.mem_erase_of_ne h1.2 |>.mpr h2
  · intro u v hv
    rw [adjOf, hlk] at hv
    by_cases hu : u = x
    · rw [if_pos hu] at hv
      simp at hv
    · rw [if_neg hu] at hv
      rcases ho : lookupD g u with _ | l
      · rw [ho] at hv
        simp at hv
      · rw [ho] at hv
        have hln : l.Nodup := hvnd (u, l) (lookupD_mem ho)
        have h1 : v ∈ l ∧ v ≠ x := (hmemF l hln v).mp (by simpa using hv)
        have h2 : u ∈ adjOf g v := hg.symm u v (by rw [adjOf, ho]; exact h1.1)
        obtain ⟨lv, hlv⟩ : ∃ lv, lookupD g v = some lv := by
          rcases ho2 : lookupD g v with _ | lv
          · rw [adjOf, ho2] at h2
            simp at h2
          · exact ⟨lv, rfl⟩
        have hlvn : lv.Nodup := hvnd (v, lv) (lookupD_mem hlv)
        have h3 : u ∈ lv := by
          rw [adjOf, hlv] at h2
          exact h2
        rw [adjOf, hlk, if_neg h1.2, hlv]
        simpa using (hmemF lv hlvn u).mpr ⟨h3, hu⟩

theorem graph_eq_nil_of_keys {α : Type} {d : List (Nat × α)}
    (h : keysOf d = []) : d = [] := by
  rcases d with _ | ⟨p, rest⟩
  · rfl
  · exact absurd h (by simp [keysOf])

theorem delNode_preserves_WF {st : LocalGraph} {x : Nat} {st' : LocalGraph}
    (hWF : WFState st) (h : delNode st x = .ok st') :
    WFState st' ∧ st'.graph = delGraph st.graph x := by
  obtain ⟨hg, hvnd, _⟩ := hWF
  obtain ⟨hg2, hvnd2⟩ := delGraph_WF hg hvnd x
  rcases hcco : connected_components (delGraph st.graph x) with _ | ccOut
  · rw [delNode] at h
    simp only [hcco] at h
    exact absurd h (by simp)
  · rw [delNode] at h
    simp only [hcco] at h
    have hst' : st' = ⟨delGraph st.graph x, ccOut⟩ := by
      injection h with h
      exact h.symm
    subst hst'
    have hne : delGraph st.graph x ≠ [] := by
      intro he
      rw [he] at hcco
      exact absurd hcco (by rw [connected_components]; simp [keysOf])
    obtain ⟨out, hout, hpost⟩ := connected_components_sound _ hg2 hne
    rw [hout] at hcco
    injection hcco with he
    subst he
    exact ⟨⟨hg2, hvnd2, WFcc_of_CCPost hpost⟩, rfl⟩

/-! ## C3: amended behaviour -/

/-- C3 amended: connected_components on the empty graph raises
StopIteration rather than returning an empty partition, and del_node
raises when it removes the last remaining node because the unconditional
recomputation hits the empty graph. -/
theorem claim3_amended :
    connected_components ([] : List (Nat × List Nat)) = none ∧
    (∀ (st : LocalGraph) (x : Nat), (keysOf st.graph).Nodup →
      (∀ k ∈ keysOf st.graph, k = x) →
      delNode st x = .error ⟨[], st.cc⟩) := by
  refine ⟨rfl, ?_⟩
  intro st x hnd hall
  rcases hG : st.graph with _ | ⟨p, rest⟩
  · have h1 : delGraph st.graph x = [] := by
      rw [hG]
      rfl
    rw [delNode]
    simp only [h1]
    rfl
  · rw [hG, keysOf] at hall hnd
    have hp1 : p.1 = x := hall p.1 (by simp)
    have hrest : rest = [] := by
      rcases rest with _ | ⟨q, rest'⟩
      · rfl
      · exfalso
        have hq : q.1 = x := hall q.1 (by simp)
        rw [List.map_cons, List.nodup_cons] at hnd
        exact hnd.1 (by rw [hp1, ← hq]; simp)
    subst hrest
    have h1 : delGraph st.graph x = [] := by
      rw [hG, delGraph, dpop, if_pos hp1]
      rfl
    rw [delNode]
    simp only [h1]
    rfl

theorem claim3_witness :
    (keysOf (([(5, [])] : List (Nat × List Nat)))).Nodup ∧
    (∀ k ∈ keysOf (([(5, [])] : List (Nat × List Nat))), k = 5) ∧
    delNode ⟨[(5, [])], [(0, [5])]⟩ 5 = .error ⟨[], [(0, [5])]⟩ :=
  ⟨by decide, by decide,
    claim3_amended.2 ⟨[(5, [])], [(0, [5])]⟩ 5 (by decide) (by decide)⟩

/-! ## del_edge graph mutation -/

theorem mem_dset {α : Type} {d : List (Nat × α)} {k : Nat} {v : α} {p : Nat × α}
    (h : p ∈ dset d k v) : p = (k, v) ∨ p ∈ d := by
  rw [dset] at h
  by_cases hk : k ∈ keysOf d
  · rw [if_pos hk] at h
    rcases List.mem_map.mp h with ⟨q, hq, rfl⟩
    by_cases hq1 : q.1 = k
    · rw [if_pos hq1]
      exact Or.inl rfl
    · rw [if_neg hq1]
      exact Or.inr hq
  · rw [if_neg hk] at h
    rcases List.mem_append.mp h with h1 | h1
    · exact Or.inr h1
    · rw [List.mem_singleton] at h1
      exact Or.inl h1

theorem delEdgeGraph_WF {g : List (Nat × List Nat)} (hg : WFGraph g)
    (hvnd : ∀ p ∈ g, p.2.Nodup) {a b : Nat} {la lb : List Nat} (hab : a ≠ b)
    (hla : lookupD g a = some la) (hlb : lookupD g b = some lb) :
    WFGraph (dset (dset g a (la.erase b)) b (lb.erase a)) ∧
    (∀ p ∈ dset (dset g a (la.erase b)) b (lb.erase a), p.2.Nodup) ∧
    keysOf (dset (dset g a (la.erase b)) b (lb.erase a)) = keysOf g := by
  have hak : a ∈ keysOf g := mem_keysOf_of_lookupD hla
  have hbk : b ∈ keysOf g := mem_keysOf_of_lookupD hlb
  have hlan : la.Nodup := hvnd (a, la) (lookupD_mem hla)
  have hlbn : lb.Nodup := hvnd (b, lb) (lookupD_mem hlb)
  have hk1 : keysOf (dset g a (la.erase b)) = keysOf g := by
    rw [keysOf_dset, if_pos hak]
  have hkeys : keysOf (dset (dset g a (la.erase b)) b (lb.erase a)) = keysOf g := by
    rw [keysOf_dset, hk1, if_pos hbk]
  have hlook : ∀ z, lookupD (dset (dset g a (la.erase b)) b (lb.erase a)) z =
      if z = b then some (lb.erase a)
      else if z = a then some (la.erase b) else lookupD g z := by
    intro z
    by_cases hzb : z = b
    · rw [if_pos hzb, hzb, lookupD_dset_self]
    · rw [if_neg hzb, lookupD_dset_ne _ _ hzb]
      by_cases hza : z = a
      · rw [if_pos hza, hza, lookupD_dset_self]
      · rw [if_neg hza, lookupD_dset_ne _ _ hza]
  have hadj : ∀ z, adjOf (dset (dset g a (la.erase b)) b (lb.erase a)) z =
      if z = b then lb.erase a
      else if z = a then la.erase b else adjOf g z := by
    intro z
    rw [adjOf, hlook z]
    by_cases hzb : z = b
    · rw [if_pos hzb, if_pos hzb]
      rfl
    · rw [if_neg hzb, if_neg hzb]
      by_cases hza : z = a
      · rw [if_pos hza, if_pos hza]
        rfl
      · rw [if_neg hza, if_neg hza, adjOf]
  refine ⟨⟨by rw [hkeys]; exact hg.knd, ?_, ?_⟩, ?_, hkeys⟩
  · intro p hp y hy
    rw [hkeys]
    rcases mem_dset hp with h1 | h1
    · rw [h1] at hy
      exact hg.closed (b, lb) (lookupD_mem hlb) y (List.mem_of_mem_erase hy)
    · rcases mem_dset h1 with h2 | h2
      · rw [h2] at hy
        exact hg.closed (a, la) (lookupD_mem hla) y (List.mem_of_mem_erase hy)
      · exact hg.closed p h2 y hy
  · intro u v hv
    rw [hadj] at hv ⊢
    by_cases hub : u = b
    · rw [if_pos hub] at hv
      have hv1 : v ∈ lb ∧ v ≠ a := by
        rw [List.Nodup.mem_erase_iff hlbn] at hv
        exact ⟨hv.2, hv.1⟩
      have hsym1 : u ∈ adjOf g v := by
        apply hg.symm
        rw [hub, adjOf, hlb]
        exact hv1.1
      by_cases hvb : v = b
      · rw [if_pos hvb]
        rw [hvb] at hv
        rw [hub]
        exact hv
      · rw [if_neg hvb, if_neg hv1.2]
        exact hsym1
    · rw [if_neg hub] at hv
      by_cases hua : u = a
      · rw [if_pos hua] at hv
        have hv1 : v ∈ la ∧ v ≠ b := by
          rw [List.Nodup.mem_erase_iff hlan] at hv
          exact ⟨hv.2, hv.1⟩
        have hsym1 : u ∈ adjOf g v := by
          apply hg.symm
          rw [hua, adjOf, hla]
          exact hv1.1
        by_cases hva : v = a
        · rw [if_neg hv1.2, if_pos hva]
          rw [hva] at hv
          rw [hua]
          exact hv
        · rw [if_neg hv1.2, if_neg hva]
          exact hsym1
      · rw [if_neg hua] at hv
        have hsym1 : u ∈ adjOf g v := hg.symm u v hv
        by_cases hvb : v = b
        · rw [if_pos hvb]
          have hulb : u ∈ lb := by
            rw [hvb, adjOf, hlb] at hsym1
            exact hsym1
          exact (List.mem_erase_of_ne hua).mpr hulb
        · rw [if_neg hvb]
          by_cases hva : v = a
          · rw [if_pos hva]
            have hula : u ∈ la := by
              rw [hva, adjOf, hla] at hsym1
              exact hsym1
            exact (List.mem_erase_of_ne hub).mpr hula
          · rw [if_neg hva]
            exact hsym1
  · intro p hp
    rcases mem_dset hp with h1 | h1
    · rw [h1]
      exact hlbn.erase a
    · rcases mem_dset h1 with h2 | h2
      · rw [h2]
        exact hlan.erase b
      · exact hvnd p h2

theorem delSingleEdge_ok_WF {st stm : LocalGraph} {a b : Nat}
    (hg : WFGraph st.graph) (hvnd : ∀ p ∈ st.graph, p.2.Nodup)
    (h : delSingleEdge st a b = .ok stm) :
    WFGraph stm.graph ∧ (∀ p ∈ stm.graph, p.2.Nodup) ∧ stm.cc = st.cc := by
  by_cases hchk : checkInGraph st.graph [a, b] = true
  · rw [delSingleEdge, if_pos hchk] at h
    have hmem : a ∈ keysOf st.graph ∧ b ∈ keysOf st.graph := by
      rw [checkInGraph] at hchk
      simp at hchk
      exact hchk
    obtain ⟨la, hla⟩ : ∃ la, lookupD st.graph a = some la := by
      rcases ho : lookupD st.graph a with _ | la
      · exact absurd ((lookupD_eq_none _ _).mp ho) (by simpa using hmem.1)
      · exact ⟨la, rfl⟩
    have hro1 : returnOther2 a b a = b := by simp [returnOther2]
    have hdo : (do
        let st1 ← removeFromAdj st a (returnOther2 a b a)
        removeFromAdj st1 b (returnOther2 a b b) : GRes) =
        (removeFromAdj st a (returnOther2 a b a) >>=
          fun st1 => removeFromAdj st1 b (returnOther2 a b b)) := rfl
    rw [hdo, hro1] at h
    by_cases hbla : b ∈ la
    · have hrm1 : removeFromAdj st a b = .ok ⟨dset st.graph a (la.erase b), st.cc⟩ := by
        rw [removeFromAdj, hla]
        simp [listRemove, hbla]
      rw [hrm1, gbind_ok] at h
      have hlan : la.Nodup := hvnd (a, la) (lookupD_mem hla)
      by_cases hab : a = b
      · exfalso
        have hro2 : returnOther2 a b b = b := by
          rw [returnOther2, if_pos hab.symm]
        rw [hro2] at h
        have hlk : lookupD (dset st.graph a (la.erase b)) b = some (la.erase b) := by
          rw [← hab, lookupD_dset_self]
        rw [removeFromAdj] at h
        simp only [hlk] at h
        have hnm : b ∉ la.erase b := by
          intro hmem2
          exact (List.Nodup.mem_erase_iff hlan).mp hmem2 |>.1 rfl
        simp [listRemove, hnm] at h
      · have hro2 : returnOther2 a b b = a := by
          rw [returnOther2, if_neg (fun he => hab he.symm)]
        rw [hro2] at h
        obtain ⟨lb, hlb⟩ : ∃ lb, lookupD st.graph b = some lb := by
          rcases ho : lookupD st.graph b with _ | lb
          · exact absurd ((lookupD_eq_none _ _).mp ho) (by simpa using hmem.2)
          · exact ⟨lb, rfl⟩
        have halb : a ∈ lb := by
          have h1 : a ∈ adjOf st.graph b := by
            apply hg.symm
            rw [adjOf, hla]
            exact hbla
          rw [adjOf, hlb] at h1
          exact h1
        have hlk : lookupD (dset st.graph a (la.erase b)) b = some lb := by
          rw [lookupD_dset_ne _ _ (fun he => hab he.symm), hlb]
        rw [removeFromAdj] at h
        simp only [hlk] at h
        have hrm : listRemove lb a = some (lb.erase a) := by
          rw [listRemove, if_pos halb]
        simp only [hrm] at h
        have hstm : stm = ⟨dset (dset st.graph a (la.erase b)) b (lb.erase a), st.cc⟩ := by
          injection h with h
          exact h.symm
        subst hstm
        obtain ⟨h1, h2, _⟩ := delEdgeGraph_WF hg hvnd hab hla hlb
        exact ⟨h1, h2, rfl⟩
    · exfalso
      have hrm1 : removeFromAdj st a b = .error st := by
        rw [removeFromAdj, hla]
        simp [listRemove, hbla]
      rw [hrm1, gbind_error] at h
      exact absurd h (by simp)
  · rw [delSingleEdge, if_neg hchk] at h
    have hstm : stm = st := by
      injection h with h
      exact h.symm
    subst hstm
    exact ⟨hg, hvnd, rfl⟩

theorem delEdge_preserves_WF {st st' : LocalGraph} {a b : Nat}
    (hWF : WFState st) (h : delEdge st a b = .ok st') : WFState st' := by
  obtain ⟨hg, hvnd, _⟩ := hWF
  have hdo : delEdge st a b =
      (delSingleEdge st a b >>= fun st1 =>
        match connected_components st1.graph with
        | none => Except.error st1
        | some cc' => Except.ok ⟨st1.graph, cc'⟩) := rfl
  rw [hdo] at h
  rcases hds : delSingleEdge st a b with stE | stm
  · rw [hds, gbind_error] at h
    exact absurd h (by simp)
  · rw [hds, gbind_ok] at h
    obtain ⟨hg2, hvnd2, _⟩ := delSingleEdge_ok_WF hg hvnd hds
    rcases hcco : connected_components stm.graph with _ | ccOut
    · simp only [hcco] at h
      exact absurd h (by simp)
    · simp only [hcco] at h
      have hst' : st' = ⟨stm.graph, ccOut⟩ := by
        injection h with h
        exact h.symm
      subst hst'
      have hne : stm.graph ≠ [] := by
        intro he
        rw [he] at hcco
        exact absurd hcco (by rw [connected_components]; simp [keysOf])
      obtain ⟨out, hout, hpost⟩ := connected_components_sound _ hg2 hne
      rw [hout] at hcco
      injection hcco with he
      subst he
      exact ⟨hg2, hvnd2, WFcc_of_CCPost hpost⟩

/-! ## Entry-level dict lemmas for the cc dict -/

theorem entry_unique {α : Type} {d : List (Nat × α)} {k : Nat} {v1 v2 : α}
    (hnd : (keysOf d).Nodup) (h1 : (k, v1) ∈ d) (h2 : (k, v2) ∈ d) : v1 = v2 := by
  have e1 := mem_lookupD hnd h1
  have e2 := mem_lookupD hnd h2
  rw [e1] at e2
  exact Option.some.inj e2

theorem self_mem_dset {α : Type} (d : List (Nat × α)) (k : Nat) (v : α) :
    (k, v) ∈ dset d k v :=
  lookupD_mem (lookupD_dset_self d k v)

theorem mem_dset_of_ne {α : Type} {d : List (Nat × α)} {e : Nat × α} {k : Nat}
    (v : α) (he : e ∈ d) (hne : e.1 ≠ k) : e ∈ dset d k v := by
  rw [dset]
  by_cases hk : k ∈ keysOf d
  · rw [if_pos hk]
    have heq : (fun p => if p.1 = k then (k, v) else p) e = e := by
      simp [hne]
    rw [← heq]
    exact List.mem_map_of_mem _ he
  · rw [if_neg hk]
    exact List.mem_append_left _ he

theorem mem_dpop_of_ne {α : Type} {d : List (Nat × α)} {e : Nat × α} {k : Nat}
    (he : e ∈ d) (hne : e.1 ≠ k) : e ∈ dpop d k := by
  induction d with
  | nil => simp at he
  | cons p rest ih =>
    rw [dpop]
    by_cases hp : p.1 = k
    · rw [if_pos hp]
      rcases List.mem_cons.mp he with h1 | h1
      · exfalso
        rw [h1] at hne
        exact hne hp
      · exact h1
    · rw [if_neg hp]
      rcases List.mem_cons.mp he with h1 | h1
      · rw [h1]
        exact List.mem_cons_self _ _
      · exact List.mem_cons_of_mem _ (ih h1)

theorem mem_dpop_ne {α : Type} {d : List (Nat × α)} {e : Nat × α} {k : Nat}
    (hnd : (keysOf d).Nodup) (he : e ∈ dpop d k) : e ∈ d ∧ e.1 ≠ k := by
  refine ⟨mem_dpop he, ?_⟩
  have h1 : e.1 ∈ keysOf (dpop d k) := by
    rw [keysOf]
    exact List.mem_map_of_mem Prod.fst he
  rw [keysOf_dpop] at h1
  intro hc
  rw [hc] at h1
  exact hnd.not_mem_erase h1

theorem reindex_fst (l : List (Nat × List Nat)) :
    (reindex l).map Prod.fst = List.range l.length := by
  rw [reindex, List.map_map]
  have h1 : (Prod.fst ∘ fun p : Nat × (Nat × List Nat) => (p.1, p.2.2)) = Prod.fst := by
    funext p
    rfl
  rw [h1, List.enum_map_fst]

theorem reindex_snd (l : List (Nat × List Nat)) :
    (reindex l).map Prod.snd = l.map Prod.snd := by
  rw [reindex, List.map_map]
  have h1 : (Prod.snd ∘ fun p : Nat × (Nat × List Nat) => (p.1, p.2.2)) =
      (Prod.snd ∘ Prod.snd) := by
    funext p
    rfl
  rw [h1, ← List.map_map, List.enum_map_snd]

theorem pairwise_of_symm_disj {cc : List (Nat × List Nat)}
    (hknd : (keysOf cc).Nodup)
    (h : ∀ e1 ∈ cc, ∀ e2 ∈ cc, e1.1 ≠ e2.1 → ∀ x, x ∈ e1.2 → x ∉ e2.2) :
    cc.Pairwise (fun e1 e2 => ∀ x, x ∈ e1.2 → x ∉ e2.2) := by
  have h1 : cc.Pairwise (fun e1 e2 => e1.1 ≠ e2.1) := by
    rw [keysOf] at hknd
    rw [List.Nodup, List.pairwise_map] at hknd
    exact hknd
  exact h1.imp_of_mem (fun {e1 e2} hm1 hm2 hne => h e1 hm1 e2 hm2 hne)

theorem dis_forall {cc : List (Nat × List Nat)}
    (hdis : cc.Pairwise (fun e1 e2 => ∀ x, x ∈ e1.2 → x ∉ e2.2)) :
    ∀ e1 ∈ cc, ∀ e2 ∈ cc, e1 ≠ e2 → ∀ x, x ∈ e1.2 → x ∉ e2.2 := by
  have hsym : Symmetric (fun e1 e2 : Nat × List Nat => ∀ x, x ∈ e1.2 → x ∉ e2.2) := by
    intro e f hef x hxf hxe
    exact hef x hxe hxf
  intro e1 h1 e2 h2 hne
  exact List.Pairwise.forall hsym hdis h1 h2 hne

theorem WFcc_of_snd_eq {g : List (Nat × List Nat)} {cc1 cc2 : List (Nat × List Nat)}
    (hsnd : cc1.map Prod.snd = cc2.map Prod.snd) (hknd2 : (keysOf cc2).Nodup)
    (h : WFcc g cc1) : WFcc g cc2 := by
  have hmem : ∀ e ∈ cc2, ∃ f ∈ cc1, f.2 = e.2 := by
    intro e he
    have h1 : e.2 ∈ cc2.map Prod.snd := List.mem_map_of_mem Prod.snd he
    rw [← hsnd] at h1
    rcases List.mem_map.mp h1 with ⟨f, hf, hfe⟩
    exact ⟨f, hf, hfe⟩
  have hmem' : ∀ e ∈ cc1, ∃ f ∈ cc2, f.2 = e.2 := by
    intro e he
    have h1 : e.2 ∈ cc1.map Prod.snd := List.mem_map_of_mem Prod.snd he
    rw [hsnd] at h1
    rcases List.mem_map.mp h1 with ⟨f, hf, hfe⟩
    exact ⟨f, hf, hfe⟩
  refine {
    knd := hknd2
    cne := ?_
    sub := ?_
    cov := ?_
    dis := ?_
    conn := ?_
    cls := ?_ }
  · intro e he
    obtain ⟨f, hf, hfe⟩ := hmem e he
    rw [← hfe]
    exact h.cne f hf
  · intro e he
    obtain ⟨f, hf, hfe⟩ := hmem e he
    rw [← hfe]
    exact h.sub f hf
  · intro x hx
    obtain ⟨e, he, hxe⟩ := h.cov x hx
    obtain ⟨f, hf, hfe⟩ := hmem' e he
    exact ⟨f, hf, by rw [hfe]; exact hxe⟩
  · have h1 : (cc1.map Prod.snd).Pairwise (fun c1 c2 => ∀ x, x ∈ c1 → x ∉ c2) := by
      rw [List.pairwise_map]
      exact h.dis
    rw [hsnd, List.pairwise_map] at h1
    exact h1
  · intro e he
    obtain ⟨f, hf, hfe⟩ := hmem e he
    rw [← hfe]
    exact h.conn f hf
  · intro e he
    obtain ⟨f, hf, hfe⟩ := hmem e he
    rw [← hfe]
    exact h.cls f hf

/-! ## add_single_edge decomposition -/

theorem dset_append_left {α : Type} {d1 d2 : List (Nat × α)} {k : Nat} (v : α)
    (hk : k ∈ keysOf d1) (hk2 : k ∉ keysOf d2) :
    dset (d1 ++ d2) k v = dset d1 k v ++ d2 := by
  have hk' : k ∈ keysOf (d1 ++ d2) := by
    rw [keysOf_append]
    exact List.mem_append_left _ hk
  rw [dset, dset, if_pos hk, if_pos hk', List.map_append]
  congr 1
  have h1 : ∀ p ∈ d2, (fun p => if p.1 = k then (k, v) else p) p = p := by
    intro p hp
    have : p.1 ≠ k := by
      intro he
      exact hk2 (by rw [keysOf, ← he]; exact List.mem_map_of_mem Prod.fst hp)
    simp [this]
  rw [List.map_congr_left h1]
  simp

theorem keysOf_eAdd (g : List (Nat × List Nat)) (x y : Nat) :
    keysOf (eAdd g x y) = keysOf g := by
  rw [eAdd]
  rcases ho : lookupD g x with _ | l
  · rfl
  · simp only [ho]
    by_cases hy : y ∈ l
    · rw [if_pos hy]
    · rw [if_neg hy, keysOf_dset, if_pos (mem_keysOf_of_lookupD ho)]

theorem lookupD_eAdd_self {g : List (Nat × List Nat)} {x : Nat} (y : Nat)
    {l : List Nat} (ho : lookupD g x = some l) :
    lookupD (eAdd g x y) x = some (if y ∈ l then l else l ++ [y]) := by
  rw [eAdd]
  simp only [ho]
  by_cases hy : y ∈ l
  · rw [if_pos hy, if_pos hy, ho]
  · rw [if_neg hy, if_neg hy, lookupD_dset_self]

theorem lookupD_eAdd_ne {g : List (Nat × List Nat)} {x z : Nat} (y : Nat)
    (hz : z ≠ x) : lookupD (eAdd g x y) z = lookupD g z := by
  rw [eAdd]
  rcases ho : lookupD g x with _ | l
  · rfl
  · simp only [ho]
    by_cases hy : y ∈ l
    · rw [if_pos hy]
    · rw [if_neg hy, lookupD_dset_ne _ _ hz]

theorem keysOf_nodeAddG (g : List (Nat × List Nat)) (x : Nat) :
    keysOf (nodeAddG g x) = if x ∈ keysOf g then keysOf g else keysOf g ++ [x] := by
  rw [nodeAddG]
  by_cases hx : x ∈ keysOf g
  · rw [if_pos hx, if_pos hx]
  · rw [if_neg hx, if_neg hx, keysOf_append]
    rfl

theorem mem_keysOf_nodeAddG (g : List (Nat × List Nat)) (x z : Nat) :
    z ∈ keysOf (nodeAddG g x) ↔ z ∈ keysOf g ∨ z = x := by
  rw [keysOf_nodeAddG]
  by_cases hx : x ∈ keysOf g
  · rw [if_pos hx]
    constructor
    · exact Or.inl
    · rintro (h | h)
      · exact h
      · rw [h]
        exact hx
  · rw [if_neg hx]
    simp

theorem lookupD_nodeAddG (g : List (Nat × List Nat)) (x z : Nat) :
    lookupD (nodeAddG g x) z =
      if z = x ∧ x ∉ keysOf g then some [] else lookupD g z := by
  rw [nodeAddG]
  by_cases hx : x ∈ keysOf g
  · rw [if_pos hx]
    have h1 : ¬(z = x ∧ x ∉ keysOf g) := by
      rintro ⟨_, h⟩
      exact h hx
    rw [if_neg h1]
  · rw [if_neg hx, lookupD_append]
    by_cases hz : z = x
    · have h0 : lookupD g z = none := by
        rw [lookupD_eq_none, hz]
        exact hx
      rw [h0]
      have h1 : z = x ∧ x ∉ keysOf g := ⟨hz, hx⟩
      rw [if_pos h1]
      rw [lookupD, if_pos hz.symm]
    · have h1 : ¬(z = x ∧ x ∉ keysOf g) := by
        rintro ⟨h, _⟩
        exact hz h
      rw [if_neg h1]
      rcases ho : lookupD g z with _ | l
      · rw [lookupD, if_neg (fun he => hz he.symm)]
        rfl
      · rfl

theorem edgeStep_ok {st : LocalGraph} (a b node : Nat)
    (hsub : ∀ e ∈ st.cc, ∀ z ∈ e.2, z ∈ keysOf st.graph) :
    edgeStep st a b node =
      .ok ⟨eAdd (nodeAddG st.graph node) node (returnOther2 a b node),
        nodeAddCC st.graph st.cc node⟩ := by
  by_cases hk : node ∈ keysOf st.graph
  · have hstep : edgeStep st a b node =
        (Except.ok st >>= fun st1 =>
          match lookupD st1.graph node with
          | none => Except.error st1
          | some l =>
            Except.ok (if returnOther2 a b node ∈ l then st1
              else ⟨dset st1.graph node (l ++ [returnOther2 a b node]), st1.cc⟩)) := by
      unfold edgeStep
      rw [if_pos hk]
    rw [hstep, gbind_ok]
    obtain ⟨l, hl⟩ : ∃ l, lookupD st.graph node = some l := by
      rcases ho : lookupD st.graph node with _ | l
      · exact absurd ((lookupD_eq_none _ _).mp ho) (by simpa using hk)
      · exact ⟨l, rfl⟩
    have hng : nodeAddG st.graph node = st.graph := by
      rw [nodeAddG, if_pos hk]
    have hnc : nodeAddCC st.graph st.cc node = st.cc := by
      rw [nodeAddCC, if_pos hk]
    rw [hng, hnc, eAdd]
    simp only [hl]
    by_cases hp : returnOther2 a b node ∈ l
    · rw [if_pos hp, if_pos hp]
    · rw [if_neg hp, if_neg hp]
  · have hstep : edgeStep st a b node =
        (addNode st node >>= fun st1 =>
          match lookupD st1.graph node with
          | none => Except.error st1
          | some l =>
            Except.ok (if returnOther2 a b node ∈ l then st1
              else ⟨dset st1.graph node (l ++ [returnOther2 a b node]), st1.cc⟩)) := by
      unfold edgeStep
      rw [if_neg hk]
    have hnomem : ∀ e ∈ st.cc, node ∉ e.2 := fun e he hne => hk (hsub e he node hne)
    have haddn : addNode st node =
        .ok ⟨dset st.graph node [], st.cc ++ [(freshIdx st.cc, [node])]⟩ :=
      addNode_fresh hnomem
    rw [hstep, haddn]
    simp only [gbind_ok]
    have hgn : dset st.graph node [] = st.graph ++ [(node, [])] :=
      dset_append_of_not_mem _ hk
    have hng : nodeAddG st.graph node = st.graph ++ [(node, [])] := by
      rw [nodeAddG, if_neg hk]
    have hnc : nodeAddCC st.graph st.cc node = st.cc ++ [(freshIdx st.cc, [node])] := by
      rw [nodeAddCC, if_neg hk]
    have hlk : lookupD (dset st.graph node []) node = some [] := lookupD_dset_self _ _ _
    simp only [hlk]
    have hnp : returnOther2 a b node ∉ ([] : List Nat) := by simp
    rw [if_neg hnp, hng, hnc, eAdd]
    have hlk2 : lookupD (st.graph ++ [(node, [])]) node = some [] := by
      rw [← hgn]
      exact hlk
    simp only [hlk2]
    rw [if_neg hnp, hgn]

theorem mem_dset_precise {α : Type} {d : List (Nat × α)} {k : Nat} {v : α}
    {e : Nat × α} (hnd : (keysOf d).Nodup) (h : e ∈ dset d k v) :
    e = (k, v) ∨ (e ∈ d ∧ e.1 ≠ k) := by
  by_cases hek : e.1 = k
  · left
    have hknd : (keysOf (dset d k v)).Nodup := by
      rw [keysOf_dset]
      by_cases hk : k ∈ keysOf d
      · rw [if_pos hk]
        exact hnd
      · rw [if_neg hk]
        rw [List.nodup_append]
        exact ⟨hnd, List.nodup_singleton _, by
          intro z hz hz2
          rw [List.mem_singleton] at hz2
          rw [hz2] at hz
          exact hk hz⟩
    have h1 : (e.1, e.2) ∈ dset d k v := by
      rw [Prod.mk.eta]
      exact h
    rw [hek] at h1
    have h2 := entry_unique hknd h1 (self_mem_dset d k v)
    rw [← hek, ← h2]
  · rcases mem_dset h with h1 | h1
    · exfalso
      rw [h1] at hek
      exact hek rfl
    · exact Or.inr ⟨h1, hek⟩

theorem mem_adjOf_iff_adj {g : List (Nat × List Nat)} {u y : Nat} :
    y ∈ adjOf g u ↔ Adj g u y := by
  constructor
  · intro hy
    rw [adjOf] at hy
    rcases ho : lookupD g u with _ | l
    · rw [ho] at hy
      simp at hy
    · rw [ho] at hy
      simp only [Option.getD_some] at hy
      exact ⟨l, ho, hy⟩
  · rintro ⟨l, hl, hy⟩
    rw [adjOf, hl]
    simp only [Option.getD_some]
    exact hy

theorem adj_nodeAddG (g : List (Nat × List Nat)) (x u v : Nat) :
    Adj (nodeAddG g x) u v ↔ Adj g u v := by
  constructor
  · rintro ⟨l, hl, hv⟩
    rw [lookupD_nodeAddG] at hl
    by_cases hc : u = x ∧ x ∉ keysOf g
    · rw [if_pos hc] at hl
      injection hl with hl
      rw [← hl] at hv
      simp at hv
    · rw [if_neg hc] at hl
      exact ⟨l, hl, hv⟩
  · rintro ⟨l, hl, hv⟩
    refine ⟨l, ?_, hv⟩
    rw [lookupD_nodeAddG]
    have hc : ¬(u = x ∧ x ∉ keysOf g) := by
      rintro ⟨he, hx⟩
      rw [he] at hl
      exact hx (mem_keysOf_of_lookupD hl)
    rw [if_neg hc]
    exact hl

theorem mem_self_keys_nodeAddG (g : List (Nat × List Nat)) (x : Nat) :
    x ∈ keysOf (nodeAddG g x) :=
  (mem_keysOf_nodeAddG g x x).mpr (Or.inr rfl)

theorem nodeAdd_WFState {g cc : List (Nat × List Nat)} (x : Nat)
    (hWF : WFState ⟨g, cc⟩) : WFState ⟨nodeAddG g x, nodeAddCC g cc x⟩ := by
  obtain ⟨hg, hvnd, hcc⟩ := hWF
  have hadj : ∀ u v, Adj (nodeAddG g x) u v ↔ Adj g u v := adj_nodeAddG g x
  have hreach : ∀ u v, Reachable g u v → Reachable (nodeAddG g x) u v :=
    reachable_mono (fun u v h => (hadj u v).mpr h)
  have hgWF : WFGraph (nodeAddG g x) := by
    refine ⟨?_, ?_, ?_⟩
    · rw [keysOf_nodeAddG]
      by_cases hx : x ∈ keysOf g
      · rw [if_pos hx]
        exact hg.knd
      · rw [if_neg hx]
        rw [List.nodup_append]
        refine ⟨hg.knd, List.nodup_singleton _, ?_⟩
        intro z hz hz2
        rw [List.mem_singleton] at hz2
        rw [hz2] at hz
        exact hx hz
    · intro p hp y hy
      rw [mem_keysOf_nodeAddG]
      rw [nodeAddG] at hp
      by_cases hx : x ∈ keysOf g
      · rw [if_pos hx] at hp
        exact Or.inl (hg.closed p hp y hy)
      · rw [if_neg hx] at hp
        rcases List.mem_append.mp hp with h1 | h1
        · exact Or.inl (hg.closed p h1 y hy)
        · rw [List.mem_singleton] at h1
          rw [h1] at hy
          simp at hy
    · intro u v hv
      rw [mem_adjOf_iff_adj] at hv ⊢
      exact (hadj v u).mpr (adj_symm_of_WFGraph hg u v ((hadj u v).mp hv))
  have hvnd2 : ∀ p ∈ nodeAddG g x, p.2.Nodup := by
    intro p hp
    rw [nodeAddG] at hp
    by_cases hx : x ∈ keysOf g
    · rw [if_pos hx] at hp
      exact hvnd p hp
    · rw [if_neg hx] at hp
      rcases List.mem_append.mp hp with h1 | h1
      · exact hvnd p h1
      · rw [List.mem_singleton] at h1
        rw [h1]
        exact List.nodup_nil
  refine ⟨hgWF, hvnd2, ?_⟩
  by_cases hx : x ∈ keysOf g
  · have hne : nodeAddCC g cc x = cc := by
      rw [nodeAddCC, if_pos hx]
    have hke : keysOf (nodeAddG g x) = keysOf g := by
      rw [keysOf_nodeAddG, if_pos hx]
    rw [hne]
    refine {
      knd := hcc.knd
      cne := hcc.cne
      sub := by
        intro e he z hz
        rw [hke]
        exact hcc.sub e he z hz
      cov := by
        intro z hz
        rw [hke] at hz
        exact hcc.cov z hz
      dis := hcc.dis
      conn := fun e he z hz y hy => hreach z y (hcc.conn e he z hz y hy)
      cls := fun e he z hz y hy => hcc.cls e he z hz y ((hadj z y).mp hy) }
  · have hne : nodeAddCC g cc x = cc ++ [(freshIdx cc, [x])] := by
      rw [nodeAddCC, if_neg hx]
    rw [hne]
    have hfr : freshIdx cc ∉ keysOf cc := freshKey_not_mem cc
    refine {
      knd := ?_
      cne := ?_
      sub := ?_
      cov := ?_
      dis := ?_
      conn := ?_
      cls := ?_ }
    · rw [keysOf_append, List.nodup_append]
      refine ⟨hcc.knd, List.nodup_singleton _, ?_⟩
      intro z hz hz2
      have h1 : z = freshIdx cc := by
        rw [keysOf] at hz2
        simpa using hz2
      rw [h1] at hz
      exact hfr hz
    · intro e he
      rcases List.mem_append.mp he with h1 | h1
      · exact hcc.cne e h1
      · rw [List.mem_singleton] at h1
        rw [h1]
        simp
    · intro e he z hz
      rw [mem_keysOf_nodeAddG]
      rcases List.mem_append.mp he with h1 | h1
      · exact Or.inl (hcc.sub e h1 z hz)
      · rw [List.mem_singleton] at h1
        rw [h1] at hz
        simp at hz
        exact Or.inr hz
    · intro z hz
      rw [mem_keysOf_nodeAddG] at hz
      rcases hz with h1 | h1
      · obtain ⟨e, he, hze⟩ := hcc.cov z h1
        exact ⟨e, List.mem_append_left _ he, hze⟩
      · refine ⟨(freshIdx cc, [x]), List.mem_append_right _ (List.mem_singleton_self _), ?_⟩
        rw [h1]
        simp
    · rw [List.pairwise_append]
      refine ⟨hcc.dis, List.pairwise_singleton _ _, ?_⟩
      intro e1 h1 e2 h2 z hz1
      rw [List.mem_singleton] at h2
      rw [h2]
      intro hz2
      simp at hz2
      rw [hz2] at hz1
      exact hx (hcc.sub e1 h1 x hz1)
    · intro e he z hz y hy
      rcases List.mem_append.mp he with h1 | h1
      · exact hreach z y (hcc.conn e h1 z hz y hy)
      · rw [List.mem_singleton] at h1
        rw [h1] at hz hy
        simp at hz hy
        rw [hz, hy]
        exact Relation.ReflTransGen.refl
    · intro e he z hz y hy
      rcases List.mem_append.mp he with h1 | h1
      · exact hcc.cls e h1 z hz y ((hadj z y).mp hy)
      · rw [List.mem_singleton] at h1
        rw [h1] at hz ⊢
        simp at hz
        rw [hz] at hy
        have h2 : Adj g x y := (hadj x y).mp hy
        obtain ⟨l, hl, _⟩ := h2
        exact absurd (mem_keysOf_of_lookupD hl) hx

theorem returnOther2_left (a b : Nat) : returnOther2 a b a = b := by
  rw [returnOther2, if_pos rfl]

theorem returnOther2_right (a b : Nat) : returnOther2 a b b = a := by
  rw [returnOther2]
  by_cases h : b = a
  · rw [if_pos h]
    exact h
  · rw [if_neg h]

theorem nodeAddCC_congr {g1 g2 : List (Nat × List Nat)}
    (cc : List (Nat × List Nat)) (x : Nat) (h : keysOf g1 = keysOf g2) :
    nodeAddCC g1 cc x = nodeAddCC g2 cc x := by
  rw [nodeAddCC, nodeAddCC, h]

theorem nodeAddG_eAdd_comm {X : List (Nat × List Nat)} {a b : Nat}
    (ha : a ∈ keysOf X) :
    nodeAddG (eAdd X a b) b = eAdd (nodeAddG X b) a b := by
  by_cases hb : b ∈ keysOf X
  · have h1 : nodeAddG (eAdd X a b) b = eAdd X a b := by
      rw [nodeAddG, if_pos (by rw [keysOf_eAdd]; exact hb)]
    have h2 : nodeAddG X b = X := by
      rw [nodeAddG, if_pos hb]
    rw [h1, h2]
  · have hab : a ≠ b := fun he => hb (he ▸ ha)
    have h1 : nodeAddG (eAdd X a b) b = eAdd X a b ++ [(b, [])] := by
      rw [nodeAddG, if_neg (by rw [keysOf_eAdd]; exact hb)]
    have h2 : nodeAddG X b = X ++ [(b, [])] := by
      rw [nodeAddG, if_neg hb]
    rw [h1, h2]
    obtain ⟨la, hla⟩ : ∃ la, lookupD X a = some la := by
      rcases ho : lookupD X a with _ | la
      · exact absurd ((lookupD_eq_none _ _).mp ho) (by simpa using ha)
      · exact ⟨la, rfl⟩
    have hla2 : lookupD (X ++ [(b, [])]) a = some la := by
      rw [lookupD_append]
      simp only [hla]
    rw [eAdd, eAdd]
    simp only [hla, hla2]
    by_cases hbla : b ∈ la
    · rw [if_pos hbla, if_pos hbla]
    · rw [if_neg hbla, if_neg hbla]
      rw [dset_append_left (la ++ [b]) ha (by simp [keysOf]; exact hab)]

theorem addSingleEdge_decomp {st : LocalGraph} (a b : Nat)
    (hsub : ∀ e ∈ st.cc, ∀ z ∈ e.2, z ∈ keysOf st.graph) :
    addSingleEdge st a b =
      (match addToCC (nodeAddCC (nodeAddG st.graph a)
          (nodeAddCC st.graph st.cc a) b) [a, b] with
       | none => Except.error
           ⟨eAdd (eAdd (nodeAddG (nodeAddG st.graph a) b) a b) b a,
            nodeAddCC (nodeAddG st.graph a) (nodeAddCC st.graph st.cc a) b⟩
       | some cc' => Except.ok
           ⟨eAdd (eAdd (nodeAddG (nodeAddG st.graph a) b) a b) b a, cc'⟩) := by
  have h0 : addSingleEdge st a b =
      (edgeStep st a b a >>= fun st1 =>
        edgeStep st1 a b b >>= fun st2 =>
          match addToCC st2.cc [a, b] with
          | none => Except.error st2
          | some cc' => Except.ok ⟨st2.graph, cc'⟩) := rfl
  rw [h0, edgeStep_ok a b a hsub, gbind_ok]
  have hGA : a ∈ keysOf (nodeAddG st.graph a) := mem_self_keys_nodeAddG _ _
  have hsub1 : ∀ e ∈ nodeAddCC st.graph st.cc a, ∀ z ∈ e.2,
      z ∈ keysOf (eAdd (nodeAddG st.graph a) a (returnOther2 a b a)) := by
    intro e he z hz
    rw [keysOf_eAdd]
    rw [nodeAddCC] at he
    by_cases hx : a ∈ keysOf st.graph
    · rw [if_pos hx] at he
      exact (mem_keysOf_nodeAddG _ _ _).mpr (Or.inl (hsub e he z hz))
    · rw [if_neg hx] at he
      rcases List.mem_append.mp he with h1 | h1
      · exact (mem_keysOf_nodeAddG _ _ _).mpr (Or.inl (hsub e h1 z hz))
      · rw [List.mem_singleton] at h1
        rw [h1] at hz
        simp at hz
        rw [hz]
        exact hGA
  rw [edgeStep_ok a b b hsub1, gbind_ok]
  rw [returnOther2_left, returnOther2_right]
  rw [nodeAddG_eAdd_comm hGA]
  rw [nodeAddCC_congr _ b (keysOf_eAdd (nodeAddG st.graph a) a b)]

theorem eAdd_eq_of_none {g : List (Nat × List Nat)} {x : Nat} (y : Nat)
    (ho : lookupD g x = none) : eAdd g x y = g := by
  rw [eAdd, ho]

theorem eAdd_eq_of_some {g : List (Nat × List Nat)} {x : Nat} (y : Nat)
    {l : List Nat} (ho : lookupD g x = some l) :
    eAdd g x y = if y ∈ l then g else dset g x (l ++ [y]) := by
  rw [eAdd, ho]

theorem adj_eAdd (g : List (Nat × List Nat)) (x y u v : Nat) :
    Adj (eAdd g x y) u v ↔ Adj g u v ∨ (u = x ∧ v = y ∧ x ∈ keysOf g) := by
  rcases ho : lookupD g x with _ | l
  · have hx : x ∉ keysOf g := (lookupD_eq_none _ _).mp ho
    rw [eAdd_eq_of_none y ho]
    constructor
    · exact Or.inl
    · rintro (h | ⟨_, _, h⟩)
      · exact h
      · exact absurd h hx
  · have hx : x ∈ keysOf g := mem_keysOf_of_lookupD ho
    rw [eAdd_eq_of_some y ho]
    by_cases hy : y ∈ l
    · rw [if_pos hy]
      constructor
      · exact Or.inl
      · rintro (h | ⟨h1, h2, _⟩)
        · exact h
        · rw [h1, h2]
          exact ⟨l, ho, hy⟩
    · rw [if_neg hy]
      constructor
      · rintro ⟨l', hl', hv⟩
        by_cases hu : u = x
        · rw [hu, lookupD_dset_self] at hl'
          injection hl' with hl'
          rw [← hl'] at hv
          rcases List.mem_append.mp hv with h1 | h1
          · refine Or.inl ⟨l, ?_, h1⟩
            rw [hu]
            exact ho
          · rw [List.mem_singleton] at h1
            exact Or.inr ⟨hu, h1, hx⟩
        · rw [lookupD_dset_ne _ _ hu] at hl'
          exact Or.inl ⟨l', hl', hv⟩
      · rintro (⟨l', hl', hv⟩ | ⟨h1, h2, _⟩)
        · by_cases hu : u = x
          · have hll : l' = l := by
              rw [hu, ho] at hl'
              exact (Option.some.inj hl').symm
            refine ⟨l ++ [y], ?_, ?_⟩
            · rw [hu, lookupD_dset_self]
            · exact List.mem_append_left _ (hll ▸ hv)
          · refine ⟨l', ?_, hv⟩
            rw [lookupD_dset_ne _ _ hu]
            exact hl'
        · rw [h1, h2]
          exact ⟨l ++ [y], lookupD_dset_self _ _ _,
            List.mem_append_right _ (List.mem_singleton_self _)⟩

theorem vnd_eAdd {g : List (Nat × List Nat)} (x y : Nat)
    (hknd : (keysOf g).Nodup) (hvnd : ∀ p ∈ g, p.2.Nodup) :
    ∀ p ∈ eAdd g x y, p.2.Nodup := by
  intro p hp
  rcases ho : lookupD g x with _ | l
  · rw [eAdd_eq_of_none y ho] at hp
    exact hvnd p hp
  · rw [eAdd_eq_of_some y ho] at hp
    by_cases hy : y ∈ l
    · rw [if_pos hy] at hp
      exact hvnd p hp
    · rw [if_neg hy] at hp
      rcases mem_dset_precise hknd hp with h1 | ⟨h1, _⟩
      · rw [h1]
        have hl : l.Nodup := hvnd (x, l) (lookupD_mem ho)
        rw [List.nodup_append]
        refine ⟨hl, List.nodup_singleton _, ?_⟩
        intro z hz hz2
        rw [List.mem_singleton] at hz2
        rw [hz2] at hz
        exact hy hz
      · exact hvnd p h1

theorem closed_eAdd {g : List (Nat × List Nat)} {x y : Nat}
    (hknd : (keysOf g).Nodup) (hcl : ∀ p ∈ g, ∀ z ∈ p.2, z ∈ keysOf g)
    (hy : y ∈ keysOf g) : ∀ p ∈ eAdd g x y, ∀ z ∈ p.2, z ∈ keysOf g := by
  intro p hp z hz
  rcases ho : lookupD g x with _ | l
  · rw [eAdd_eq_of_none y ho] at hp
    exact hcl p hp z hz
  · rw [eAdd_eq_of_some y ho] at hp
    by_cases hyl : y ∈ l
    · rw [if_pos hyl] at hp
      exact hcl p hp z hz
    · rw [if_neg hyl] at hp
      rcases mem_dset_precise hknd hp with h1 | ⟨h1, _⟩
      · rw [h1] at hz
        rcases List.mem_append.mp hz with h2 | h2
        · exact hcl (x, l) (lookupD_mem ho) z h2
        · rw [List.mem_singleton] at h2
          rw [h2]
          exact hy
      · exact hcl p h1 z hz

theorem eAdd2_WF {gm : List (Nat × List Nat)} {a b : Nat}
    (hg : WFGraph gm) (hvnd : ∀ p ∈ gm, p.2.Nodup)
    (ha : a ∈ keysOf gm) (hb : b ∈ keysOf gm) :
    WFGraph (eAdd (eAdd gm a b) b a) ∧
    (∀ p ∈ eAdd (eAdd gm a b) b a, p.2.Nodup) ∧
    keysOf (eAdd (eAdd gm a b) b a) = keysOf gm ∧
    (∀ u v, Adj (eAdd (eAdd gm a b) b a) u v ↔
      Adj gm u v ∨ (u = a ∧ v = b) ∨ (u = b ∧ v = a)) := by
  have hkeys : keysOf (eAdd (eAdd gm a b) b a) = keysOf gm := by
    rw [keysOf_eAdd, keysOf_eAdd]
  have hb1 : b ∈ keysOf (eAdd gm a b) := by
    rw [keysOf_eAdd]
    exact hb
  have ha1 : a ∈ keysOf (eAdd gm a b) := by
    rw [keysOf_eAdd]
    exact ha
  have hadj : ∀ u v, Adj (eAdd (eAdd gm a b) b a) u v ↔
      Adj gm u v ∨ (u = a ∧ v = b) ∨ (u = b ∧ v = a) := by
    intro u v
    rw [adj_eAdd, adj_eAdd]
    constructor
    · rintro ((h | ⟨h1, h2, _⟩) | ⟨h1, h2, _⟩)
      · exact Or.inl h
      · exact Or.inr (Or.inl ⟨h1, h2⟩)
      · exact Or.inr (Or.inr ⟨h1, h2⟩)
    · rintro (h | ⟨h1, h2⟩ | ⟨h1, h2⟩)
      · exact Or.inl (Or.inl h)
      · exact Or.inl (Or.inr ⟨h1, h2, ha⟩)
      · exact Or.inr ⟨h1, h2, hb1⟩
  have hknd1 : (keysOf (eAdd gm a b)).Nodup := by
    rw [keysOf_eAdd]
    exact hg.knd
  have hvnd1 : ∀ p ∈ eAdd gm a b, p.2.Nodup := vnd_eAdd a b hg.knd hvnd
  have hvnd2 : ∀ p ∈ eAdd (eAdd gm a b) b a, p.2.Nodup := vnd_eAdd b a hknd1 hvnd1
  have step1 : ∀ p ∈ eAdd gm a b, ∀ z ∈ p.2, z ∈ keysOf gm :=
    closed_eAdd hg.knd hg.closed hb
  have step1' : ∀ p ∈ eAdd gm a b, ∀ z ∈ p.2, z ∈ keysOf (eAdd gm a b) := by
    intro p hp z hz
    rw [keysOf_eAdd]
    exact step1 p hp z hz
  have step2 : ∀ p ∈ eAdd (eAdd gm a b) b a, ∀ z ∈ p.2,
      z ∈ keysOf (eAdd gm a b) := closed_eAdd hknd1 step1' ha1
  refine ⟨⟨?_, ?_, ?_⟩, hvnd2, hkeys, hadj⟩
  · rw [hkeys]
    exact hg.knd
  · intro p hp z hz
    rw [hkeys, ← keysOf_eAdd gm a b]
    exact step2 p hp z hz
  · intro u v hv
    rw [mem_adjOf_iff_adj] at hv ⊢
    rw [hadj] at hv ⊢
    rcases hv with h | ⟨h1, h2⟩ | ⟨h1, h2⟩
    · exact Or.inl (adj_symm_of_WFGraph hg u v h)
    · exact Or.inr (Or.inr ⟨h2, h1⟩)
    · exact Or.inr (Or.inl ⟨h2, h1⟩)

theorem WFcc_of_equiv {g cc1 cc2 : List (Nat × List Nat)}
    (h1 : WFcc g cc1) (hknd2 : (keysOf cc2).Nodup)
    (hfwd : ∀ e ∈ cc2, ∃ f ∈ cc1, f.1 = e.1 ∧ ∀ z, z ∈ e.2 ↔ z ∈ f.2)
    (hbwd : ∀ f ∈ cc1, ∃ e ∈ cc2, ∀ z, z ∈ e.2 ↔ z ∈ f.2) :
    WFcc g cc2 := by
  refine {
    knd := hknd2
    cne := ?_
    sub := ?_
    cov := ?_
    dis := ?_
    conn := ?_
    cls := ?_ }
  · intro e he
    obtain ⟨f, hf, _, hz⟩ := hfwd e he
    have hne := h1.cne f hf
    rcases hx : f.2 with _ | ⟨x, rest⟩
    · exact absurd hx hne
    · intro hcon
      have hxe : x ∈ e.2 := (hz x).mpr (by rw [hx]; exact List.mem_cons_self _ _)
      rw [hcon] at hxe
      simp at hxe
  · intro e he z hz
    obtain ⟨f, hf, _, hzz⟩ := hfwd e he
    exact h1.sub f hf z ((hzz z).mp hz)
  · intro z hz
    obtain ⟨f, hf, hzf⟩ := h1.cov z hz
    obtain ⟨e, he, hze⟩ := hbwd f hf
    exact ⟨e, he, (hze z).mpr hzf⟩
  · apply pairwise_of_symm_disj hknd2
    intro e1 h1m e2 h2m hne z hz1 hz2
    obtain ⟨f1, hf1, hk1, hzz1⟩ := hfwd e1 h1m
    obtain ⟨f2, hf2, hk2, hzz2⟩ := hfwd e2 h2m
    have hff : f1 ≠ f2 := by
      intro he
      rw [he, hk2] at hk1
      exact hne hk1.symm
    exact dis_forall h1.dis f1 hf1 f2 hf2 hff z ((hzz1 z).mp hz1) ((hzz2 z).mp hz2)
  · intro e he x hx y hy
    obtain ⟨f, hf, _, hzz⟩ := hfwd e he
    exact h1.conn f hf x ((hzz x).mp hx) y ((hzz y).mp hy)
  · intro e he x hx y hy
    obtain ⟨f, hf, _, hzz⟩ := hfwd e he
    exact (hzz y).mpr (h1.cls f hf x ((hzz x).mp hx) y hy)

theorem WFcc_new_edge {gm g2 cc : List (Nat × List Nat)} {a b : Nat}
    (hcc : WFcc gm cc) (hkeys : keysOf g2 = keysOf gm)
    (hadj : ∀ u v, Adj g2 u v ↔ Adj gm u v ∨ (u = a ∧ v = b) ∨ (u = b ∧ v = a))
    (hsame : ∃ e ∈ cc, a ∈ e.2 ∧ b ∈ e.2) :
    WFcc g2 cc := by
  have hreach : ∀ x y, Reachable gm x y → Reachable g2 x y :=
    reachable_mono (fun u v h => (hadj u v).mpr (Or.inl h))
  obtain ⟨e0, he0, ha0, hb0⟩ := hsame
  have hcomp : ∀ e ∈ cc, ∀ x ∈ e.2, x = a ∨ x = b → e = e0 := by
    intro e he x hx hxab
    by_cases heq : e = e0
    · exact heq
    · exfalso
      have hd := dis_forall hcc.dis e he e0 he0 heq x hx
      rcases hxab with h | h
      · rw [h] at hd
        exact hd ha0
      · rw [h] at hd
        exact hd hb0
  refine {
    knd := hcc.knd
    cne := hcc.cne
    sub := ?_
    cov := ?_
    dis := hcc.dis
    conn := fun e he x hx y hy => hreach x y (hcc.conn e he x hx y hy)
    cls := ?_ }
  · intro e he x hx
    rw [hkeys]
    exact hcc.sub e he x hx
  · intro x hx
    rw [hkeys] at hx
    exact hcc.cov x hx
  · intro e he x hx y hy
    rcases (hadj x y).mp hy with h | ⟨h1, h2⟩ | ⟨h1, h2⟩
    · exact hcc.cls e he x hx y h
    · have he2 : e = e0 := hcomp e he x hx (Or.inl h1)
      rw [he2, h2]
      exact hb0
    · have he2 : e = e0 := hcomp e he x hx (Or.inr h1)
      rw [he2, h2]
      exact ha0

theorem addToCC_pair_self {ccm : List (Nat × List Nat)} {a ia : Nat}
    {ca : List Nat} (hla : ccLookup ccm a = some ia)
    (hca : lookupD ccm ia = some ca) :
    addToCC ccm [a, a] = some (dset ccm ia (ca ++ [a])) := by
  have hbm : buildMap ccm [a, a] = [(a, ia)] := buildMap_pair_same ccm a hla
  have hro : returnOtherL [a, a] a = some a := by
    rw [returnOtherL]
    simp
  rw [addToCC]
  simp only [hbm, hro, hca]

theorem addToCC_pair_same {ccm : List (Nat × List Nat)} {a b ia : Nat}
    (hab : a ≠ b) (hla : ccLookup ccm a = some ia)
    (hlb : ccLookup ccm b = some ia) :
    addToCC ccm [a, b] = some ccm := by
  have hbm : buildMap ccm [a, b] = [(a, ia), (b, ia)] :=
    buildMap_pair_ne ccm hab hla hlb
  rw [addToCC]
  simp only [hbm]
  simp [lookupD, hab]

theorem addToCC_pair_merge {ccm : List (Nat × List Nat)} {a b ia ib : Nat}
    {ca cb : List Nat} (hab : a ≠ b) (hla : ccLookup ccm a = some ia)
    (hlb : ccLookup ccm b = some ib) (hne : ia ≠ ib)
    (hca : lookupD ccm ia = some ca) (hcb : lookupD ccm ib = some cb) :
    addToCC ccm [a, b] = some (reindex (dpop (dset ccm ia (ca ++ cb)) ib)) := by
  have hbm : buildMap ccm [a, b] = [(a, ia), (b, ib)] :=
    buildMap_pair_ne ccm hab hla hlb
  rw [addToCC]
  simp only [hbm]
  simp [lookupD, hab, hne, hca, hcb]

theorem addToCC_merge_WFcc {gm g2 ccm : List (Nat × List Nat)} {a b ia ib : Nat}
    {ca cb : List Nat}
    (hcc : WFcc gm ccm) (hkeys : keysOf g2 = keysOf gm)
    (hadj : ∀ u v, Adj g2 u v ↔ Adj gm u v ∨ (u = a ∧ v = b) ∨ (u = b ∧ v = a))
    (hcaMem : (ia, ca) ∈ ccm) (haca : a ∈ ca)
    (hcbMem : (ib, cb) ∈ ccm) (hbcb : b ∈ cb)
    (hne : ia ≠ ib) :
    WFcc g2 (reindex (dpop (dset ccm ia (ca ++ cb)) ib)) := by
  have hreach : ∀ x y, Reachable gm x y → Reachable g2 x y :=
    reachable_mono (fun u v h => (hadj u v).mpr (Or.inl h))
  have hab2 : Adj g2 a b := (hadj a b).mpr (Or.inr (Or.inl ⟨rfl, rfl⟩))
  have hba2 : Adj g2 b a := (hadj b a).mpr (Or.inr (Or.inr ⟨rfl, rfl⟩))
  have hia : ia ∈ keysOf ccm := List.mem_map_of_mem Prod.fst hcaMem
  have hkndD : (keysOf (dset ccm ia (ca ++ cb))).Nodup := by
    rw [keysOf_dset, if_pos hia]
    exact hcc.knd
  have hmemMid : ∀ e ∈ dpop (dset ccm ia (ca ++ cb)) ib,
      e = (ia, ca ++ cb) ∨ (e ∈ ccm ∧ e.1 ≠ ia ∧ e.1 ≠ ib) := by
    intro e he
    obtain ⟨heD, hneib⟩ := mem_dpop_ne hkndD he
    rcases mem_dset_precise hcc.knd heD with h1 | ⟨h1, h2⟩
    · exact Or.inl h1
    · exact Or.inr ⟨h1, h2, hneib⟩
  have hmergMem : (ia, ca ++ cb) ∈ dpop (dset ccm ia (ca ++ cb)) ib :=
    mem_dpop_of_ne (self_mem_dset ccm ia (ca ++ cb)) hne
  have holdMem : ∀ e ∈ ccm, e.1 ≠ ia → e.1 ≠ ib →
      e ∈ dpop (dset ccm ia (ca ++ cb)) ib := fun e he h1 h2 =>
    mem_dpop_of_ne (mem_dset_of_ne _ he h1) h2
  have hkeyEq : ∀ e ∈ ccm, e.1 = ia → e.2 = ca := by
    intro e he hkey
    have h1 : (ia, e.2) ∈ ccm := by
      rw [← hkey, Prod.mk.eta]
      exact he
    exact entry_unique hcc.knd h1 hcaMem
  have hkeyEqB : ∀ e ∈ ccm, e.1 = ib → e.2 = cb := by
    intro e he hkey
    have h1 : (ib, e.2) ∈ ccm := by
      rw [← hkey, Prod.mk.eta]
      exact he
    exact entry_unique hcc.knd h1 hcbMem
  have hdisCA : ∀ e ∈ ccm, e.1 ≠ ia → ∀ z ∈ ca, z ∉ e.2 := by
    intro e he h1 z hz
    have hnee : (ia, ca) ≠ e := by
      intro h
      rw [← h] at h1
      exact h1 rfl
    exact dis_forall hcc.dis (ia, ca) hcaMem e he hnee z hz
  have hdisCB : ∀ e ∈ ccm, e.1 ≠ ib → ∀ z ∈ cb, z ∉ e.2 := by
    intro e he h1 z hz
    have hnee : (ib, cb) ≠ e := by
      intro h
      rw [← h] at h1
      exact h1 rfl
    exact dis_forall hcc.dis (ib, cb) hcbMem e he hnee z hz
  have hMid : WFcc g2 (dpop (dset ccm ia (ca ++ cb)) ib) := by
    refine {
      knd := ?_
      cne := ?_
      sub := ?_
      cov := ?_
      dis := ?_
      conn := ?_
      cls := ?_ }
    · rw [keysOf_dpop]
      exact hkndD.erase ib
    · intro e he
      rcases hmemMid e he with h1 | ⟨h1, _⟩
      · rw [h1]
        intro hcon
        have h2 := List.append_eq_nil.mp hcon
        exact hcc.cne (ia, ca) hcaMem h2.1
      · exact hcc.cne e h1
    · intro e he z hz
      rw [hkeys]
      rcases hmemMid e he with h1 | ⟨h1, _⟩
      · rw [h1] at hz
        rcases List.mem_append.mp hz with h2 | h2
        · exact hcc.sub (ia, ca) hcaMem z h2
        · exact hcc.sub (ib, cb) hcbMem z h2
      · exact hcc.sub e h1 z hz
    · intro z hz
      rw [hkeys] at hz
      obtain ⟨e, he, hze⟩ := hcc.cov z hz
      by_cases h1 : e.1 = ia
      · refine ⟨(ia, ca ++ cb), hmergMem, ?_⟩
        have h2 := hkeyEq e he h1
        rw [h2] at hze
        exact List.mem_append_left _ hze
      · by_cases h2 : e.1 = ib
        · refine ⟨(ia, ca ++ cb), hmergMem, ?_⟩
          have h3 := hkeyEqB e he h2
          rw [h3] at hze
          exact List.mem_append_right _ hze
        · exact ⟨e, holdMem e he h1 h2, hze⟩
    · apply pairwise_of_symm_disj
      · rw [keysOf_dpop]
        exact hkndD.erase ib
      · intro e1 h1m e2 h2m hnek z hz1 hz2
        rcases hmemMid e1 h1m with h1 | ⟨h1, h1a, _⟩
        · rcases hmemMid e2 h2m with h2 | ⟨h2, h2a, h2b⟩
          · rw [h1, h2] at hnek
            exact hnek rfl
          · rw [h1] at hz1
            rcases List.mem_append.mp hz1 with h3 | h3
            · exact hdisCA e2 h2 h2a z h3 hz2
            · exact hdisCB e2 h2 h2b z h3 hz2
        · rcases hmemMid e2 h2m with h2 | ⟨h2, h2a, _⟩
          · rw [h2] at hz2
            rcases List.mem_append.mp hz2 with h3 | h3
            · exact hdisCA e1 h1 h1a z h3 hz1
            · have h1b : e1.1 ≠ ib := (hmemMid e1 h1m).elim
                (fun hx => absurd hx (by
                  intro hcon
                  rw [hcon, h2] at hnek
                  exact hnek rfl)) (fun hx => hx.2.2)
              exact hdisCB e1 h1 h1b z h3 hz1
          · have hne12 : e1 ≠ e2 := by
              intro h
              rw [h] at hnek
              exact hnek rfl
            exact dis_forall hcc.dis e1 h1 e2 h2 hne12 z hz1 hz2
    · intro e he x hx y hy
      rcases hmemMid e he with h1 | ⟨h1, _⟩
      · rw [h1] at hx hy
        have hxa : ∀ z ∈ ca ++ cb, Reachable g2 z a := by
          intro z hz
          rcases List.mem_append.mp hz with h2 | h2
          · exact hreach z a (hcc.conn (ia, ca) hcaMem z h2 a haca)
          · exact Relation.ReflTransGen.trans
              (hreach z b (hcc.conn (ib, cb) hcbMem z h2 b hbcb))
              (Relation.ReflTransGen.single hba2)
        have hay : ∀ z ∈ ca ++ cb, Reachable g2 a z := by
          intro z hz
          rcases List.mem_append.mp hz with h2 | h2
          · exact hreach a z (hcc.conn (ia, ca) hcaMem a haca z h2)
          · exact Relation.ReflTransGen.trans
              (Relation.ReflTransGen.single hab2)
              (hreach b z (hcc.conn (ib, cb) hcbMem b hbcb z h2))
        exact Relation.ReflTransGen.trans (hxa x hx) (hay y hy)
      · exact hreach x y (hcc.conn e h1 x hx y hy)
    · intro e he x hx y hy
      rcases hmemMid e he with h1 | ⟨h1, h1a, h1b⟩
      · rw [h1] at hx ⊢
        rcases (hadj x y).mp hy with h2 | ⟨h2, h3⟩ | ⟨h2, h3⟩
        · rcases List.mem_append.mp hx with h4 | h4
          · exact List.mem_append_left _ (hcc.cls (ia, ca) hcaMem x h4 y h2)
          · exact List.mem_append_right _ (hcc.cls (ib, cb) hcbMem x h4 y h2)
        · rw [h3]
          exact List.mem_append_right _ hbcb
        · rw [h3]
          exact List.mem_append_left _ haca
      · rcases (hadj x y).mp hy with h2 | ⟨h2, h3⟩ | ⟨h2, h3⟩
        · exact hcc.cls e h1 x hx y h2
        · exfalso
          rw [h2] at hx
          exact hdisCA e h1 h1a a haca hx
        · exfalso
          rw [h2] at hx
          exact hdisCB e h1 h1b b hbcb hx
  refine WFcc_of_snd_eq (reindex_snd _).symm ?_ hMid
  rw [keysOf, reindex_fst]
  exact List.nodup_range _

theorem addToCC_edge_WF {gm g2 ccm : List (Nat × List Nat)} {a b : Nat}
    (hcc : WFcc gm ccm) (ha : a ∈ keysOf gm) (hb : b ∈ keysOf gm)
    (hkeys : keysOf g2 = keysOf gm)
    (hadj : ∀ u v, Adj g2 u v ↔ Adj gm u v ∨ (u = a ∧ v = b) ∨ (u = b ∧ v = a)) :
    ∃ cc', addToCC ccm [a, b] = some cc' ∧ WFcc g2 cc' := by
  obtain ⟨ea, hea, haea⟩ := hcc.cov a ha
  obtain ⟨eb, heb, hbeb⟩ := hcc.cov b hb
  have heaM : (ea.1, ea.2) ∈ ccm := by
    rw [Prod.mk.eta]
    exact hea
  have hebM : (eb.1, eb.2) ∈ ccm := by
    rw [Prod.mk.eta]
    exact heb
  have hla : ccLookup ccm a = some ea.1 := ccLookup_unique hcc.dis heaM haea
  have hlb : ccLookup ccm b = some eb.1 := ccLookup_unique hcc.dis hebM hbeb
  have hcaL : lookupD ccm ea.1 = some ea.2 := mem_lookupD hcc.knd heaM
  have hcbL : lookupD ccm eb.1 = some eb.2 := mem_lookupD hcc.knd hebM
  by_cases hab : a = b
  · subst hab
    refine ⟨dset ccm ea.1 (ea.2 ++ [a]), addToCC_pair_self hla hcaL, ?_⟩
    have hccg2 : WFcc g2 ccm := WFcc_new_edge hcc hkeys hadj ⟨ea, hea, haea, haea⟩
    have hkia : ea.1 ∈ keysOf ccm := List.mem_map_of_mem Prod.fst hea
    refine WFcc_of_equiv hccg2 ?_ ?_ ?_
    · rw [keysOf_dset, if_pos hkia]
      exact hcc.knd
    · intro e he
      rcases mem_dset_precise hcc.knd he with h1 | ⟨h1, _⟩
      · refine ⟨ea, hea, by rw [h1], ?_⟩
        intro z
        rw [h1]
        simp only [List.mem_append, List.mem_singleton]
        constructor
        · rintro (h2 | h2)
          · exact h2
          · rw [h2]
            exact haea
        · exact Or.inl
      · exact ⟨e, h1, rfl, fun z => Iff.rfl⟩
    · intro f hf
      by_cases h1 : f.1 = ea.1
      · have h2 : f.2 = ea.2 := by
          refine entry_unique hcc.knd ?_ heaM
          rw [← h1, Prod.mk.eta]
          exact hf
        refine ⟨(ea.1, ea.2 ++ [a]), self_mem_dset _ _ _, ?_⟩
        intro z
        rw [h2]
        simp only [List.mem_append, List.mem_singleton]
        constructor
        · rintro (h3 | h3)
          · exact h3
          · rw [h3]
            exact haea
        · exact Or.inl
      · exact ⟨f, mem_dset_of_ne _ hf h1, fun z => Iff.rfl⟩
  · by_cases hii : ea.1 = eb.1
    · refine ⟨ccm, addToCC_pair_same hab hla (by rw [hlb, hii]), ?_⟩
      rw [hii] at heaM
      have hsnd : ea.2 = eb.2 := entry_unique hcc.knd heaM hebM
      have hbea : b ∈ ea.2 := by
        rw [hsnd]
        exact hbeb
      exact WFcc_new_edge hcc hkeys hadj ⟨ea, hea, haea, hbea⟩
    · refine ⟨_, addToCC_pair_merge hab hla hlb hii hcaL hcbL, ?_⟩
      exact addToCC_merge_WFcc hcc hkeys hadj heaM haea hebM hbeb hii

theorem addSingleEdge_preserves_WF {st st' : LocalGraph} {a b : Nat}
    (hWF : WFState st) (h : addSingleEdge st a b = .ok st') : WFState st' := by
  obtain ⟨hg, hvnd, hcc⟩ := hWF
  rw [addSingleEdge_decomp a b hcc.sub] at h
  have h1 : WFState ⟨nodeAddG st.graph a, nodeAddCC st.graph st.cc a⟩ :=
    nodeAdd_WFState a ⟨hg, hvnd, hcc⟩
  have h2 : WFState ⟨nodeAddG (nodeAddG st.graph a) b,
      nodeAddCC (nodeAddG st.graph a) (nodeAddCC st.graph st.cc a) b⟩ :=
    nodeAdd_WFState b h1
  obtain ⟨hg2, hvnd2, hcc2⟩ := h2
  have haK : a ∈ keysOf (nodeAddG (nodeAddG st.graph a) b) := by
    rw [mem_keysOf_nodeAddG]
    exact Or.inl (mem_self_keys_nodeAddG _ _)
  have hbK : b ∈ keysOf (nodeAddG (nodeAddG st.graph a) b) :=
    mem_self_keys_nodeAddG _ _
  obtain ⟨hgG2, hvndG2, hkeysG2, hadjG2⟩ := eAdd2_WF hg2 hvnd2 haK hbK
  obtain ⟨cc', hcc', hWFcc'⟩ := addToCC_edge_WF hcc2 haK hbK hkeysG2 hadjG2
  simp only [hcc'] at h
  injection h with h
  rw [← h]
  exact ⟨hgG2, hvndG2, hWFcc'⟩

theorem addNode_ok_WF {st st' : LocalGraph} {x : Nat}
    (hWF : WFState st) (h : addNode st x = .ok st') : WFState st' := by
  obtain ⟨hg, hvnd, hcc⟩ := hWF
  by_cases hx : x ∈ keysOf st.graph
  · exfalso
    obtain ⟨e, he, hxe⟩ := hcc.cov x hx
    have heM : (e.1, e.2) ∈ st.cc := by
      rw [Prod.mk.eta]
      exact he
    have hla : ccLookup st.cc x = some e.1 := ccLookup_unique hcc.dis heM hxe
    have h2 : addNode st x = Except.error ⟨dset st.graph x [], st.cc⟩ :=
      addNode_present_err hla
    rw [h2] at h
    exact Except.noConfusion h
  · have hnm : ∀ e ∈ st.cc, x ∉ e.2 := fun e he hxe => hx (hcc.sub e he x hxe)
    have h2 : addNode st x = .ok ⟨dset st.graph x [],
        st.cc ++ [(if st.cc = [] then 0 else maxKey st.cc + 1, [x])]⟩ :=
      addNode_fresh hnm
    rw [h2] at h
    injection h with h
    have h3 : WFState ⟨nodeAddG st.graph x, nodeAddCC st.graph st.cc x⟩ :=
      nodeAdd_WFState x ⟨hg, hvnd, hcc⟩
    have h4 : (⟨nodeAddG st.graph x, nodeAddCC st.graph st.cc x⟩ : LocalGraph) =
        ⟨dset st.graph x [],
          st.cc ++ [(if st.cc = [] then 0 else maxKey st.cc + 1, [x])]⟩ := by
      rw [nodeAddG, if_neg hx, nodeAddCC, if_neg hx, dset_append_of_not_mem _ hx,
        freshIdx]
    rw [h4] at h3
    rw [← h]
    exact h3

theorem WFState_empty : WFState ⟨[], []⟩ := by
  refine ⟨⟨List.nodup_nil, ?_, ?_⟩, ?_, ?_⟩
  · intro p hp
    simp at hp
  · intro x y hy
    simp [adjOf, lookupD] at hy
  · intro p hp
    simp at hp
  · refine {
      knd := List.nodup_nil
      cne := by intro e he; simp at he
      sub := by intro e he; simp at he
      cov := by intro x hx; simp [keysOf] at hx
      dis := List.Pairwise.nil
      conn := by intro e he; simp at he
      cls := by intro e he; simp at he }

theorem runOpsFrom_WF {ops : List GraphOp} {st st' : LocalGraph}
    (hWF : WFState st) (h : runOpsFrom st ops = .ok st') : WFState st' := by
  induction ops generalizing st with
  | nil =>
    rw [runOpsFrom] at h
    injection h with h
    rw [← h]
    exact hWF
  | cons op rest ih =>
    rw [runOpsFrom] at h
    rcases ho : applyOp st op with e | st1
    · simp only [ho] at h
      exact Except.noConfusion h
    · simp only [ho] at h
      refine ih ?_ h
      cases op with
      | addN x => exact addNode_ok_WF hWF ho
      | delN x => exact (delNode_preserves_WF hWF ho).1
      | addE a b => exact addSingleEdge_preserves_WF hWF ho
      | delE a b => exact delEdge_preserves_WF hWF ho

theorem runOps_WF {ops : List GraphOp} {st' : LocalGraph}
    (h : runOps ops = .ok st') : WFState st' := by
  rw [runOps] at h
  exact runOpsFrom_WF WFState_empty h

/-- C1: after every successful sequence of add_node / add_edge / del_node /
del_edge operations from the empty LocalGraph, two graph nodes lie in a
common component of the cc attribute exactly when a path of graph edges
connects them. -/
theorem claim1_cc_partition {ops : List GraphOp} {st : LocalGraph}
    (h : runOps ops = .ok st) (x y : Nat) (hx : x ∈ keysOf st.graph)
    (hy : y ∈ keysOf st.graph) :
    (∃ e ∈ st.cc, x ∈ e.2 ∧ y ∈ e.2) ↔ Reachable st.graph x y := by
  obtain ⟨hg, hvnd, hcc⟩ := runOps_WF h
  constructor
  · rintro ⟨e, he, hxe, hye⟩
    exact hcc.conn e he x hxe y hye
  · intro hr
    obtain ⟨e, he, hxe⟩ := hcc.cov x hx
    refine ⟨e, he, hxe, ?_⟩
    exact reachable_closed (fun z hz w hw => hcc.cls e he z hz w hw) x hxe y hr

theorem claim1_witness :
    (∃ e ∈ [(0, [1, 2])], 1 ∈ e.2 ∧ 2 ∈ e.2) ↔
      Reachable [(1, [2]), (2, [1])] 1 2 :=
  claim1_cc_partition
    (rfl : runOps [GraphOp.addE 1 2] =
      Except.ok ⟨[(1, [2]), (2, [1])], [(0, [1, 2])]⟩)
    1 2 (by decide) (by decide)

/-- C5 amended: add_node is not idempotent for ids already present.  For an
id x that is a key of the graph after a successful operation sequence,
add_node(x) first resets graph[x] to the empty list and then raises
IndexError inside _add_to_cc (return_other on the single-element map), so
the call raises and the adjacency list of x is destroyed; only cc is left
as it was. -/
theorem claim5_amended {ops : List GraphOp} {st : LocalGraph} {x : Nat}
    (h : runOps ops = .ok st) (hx : x ∈ keysOf st.graph) :
    addNode st x = .error ⟨dset st.graph x [], st.cc⟩ := by
  obtain ⟨_, _, hcc⟩ := runOps_WF h
  obtain ⟨e, he, hxe⟩ := hcc.cov x hx
  have heM : (e.1, e.2) ∈ st.cc := by
    rw [Prod.mk.eta]
    exact he
  exact addNode_present_err (ccLookup_unique hcc.dis heM hxe)

theorem claim5_witness :
    addNode ⟨[(1, [])], [(0, [1])]⟩ 1 =
      Except.error ⟨dset [(1, [])] 1 [], [(0, [1])]⟩ :=
  claim5_amended
    (rfl : runOps [GraphOp.addN 1] = Except.ok ⟨[(1, [])], [(0, [1])]⟩)
    (by decide)

/-- C6: adjacency symmetry is an invariant of every successful operation
sequence from the empty LocalGraph: b lies in graph[a] exactly when a lies
in graph[b]. -/
theorem claim6_symmetry {ops : List GraphOp} {st : LocalGraph}
    (h : runOps ops = .ok st) (a b : Nat) :
    b ∈ adjOf st.graph a ↔ a ∈ adjOf st.graph b := by
  obtain ⟨hg, _, _⟩ := runOps_WF h
  exact ⟨hg.symm a b, hg.symm b a⟩

theorem claim6_witness :
    2 ∈ adjOf [(1, [2]), (2, [1])] 1 ↔ 1 ∈ adjOf [(1, [2]), (2, [1])] 2 :=
  claim6_symmetry
    (rfl : runOps [GraphOp.addE 1 2] =
      Except.ok ⟨[(1, [2]), (2, [1])], [(0, [1, 2])]⟩)
    1 2

theorem adj_delGraph_sub {g : List (Nat × List Nat)} (hnd : (keysOf g).Nodup)
    {x u v : Nat} (h : Adj (delGraph g x) u v) : Adj g u v := by
  obtain ⟨l, hl, hv⟩ := h
  rw [lookupD_delGraph g hnd] at hl
  by_cases hu : u = x
  · rw [if_pos hu] at hl
    exact Option.noConfusion hl
  · rw [if_neg hu] at hl
    rcases ho : lookupD g u with _ | l0
    · rw [ho] at hl
      exact Option.noConfusion hl
    · rw [ho] at hl
      injection hl with hl
      refine ⟨l0, ho, ?_⟩
      rw [← hl] at hv
      by_cases hx0 : x ∈ l0
      · simp only [if_pos hx0] at hv
        exact List.mem_of_mem_erase hv
      · simp only [if_neg hx0] at hv
        exact hv

theorem addNode_ok_eq {st st' : LocalGraph} {x : Nat}
    (hWF : WFState st) (h : addNode st x = .ok st') :
    st' = ⟨nodeAddG st.graph x, nodeAddCC st.graph st.cc x⟩ := by
  obtain ⟨hg, hvnd, hcc⟩ := hWF
  by_cases hx : x ∈ keysOf st.graph
  · exfalso
    obtain ⟨e, he, hxe⟩ := hcc.cov x hx
    have heM : (e.1, e.2) ∈ st.cc := by
      rw [Prod.mk.eta]
      exact he
    have h2 : addNode st x = Except.error ⟨dset st.graph x [], st.cc⟩ :=
      addNode_present_err (ccLookup_unique hcc.dis heM hxe)
    rw [h2] at h
    exact Except.noConfusion h
  · have hnm : ∀ e ∈ st.cc, x ∉ e.2 := fun e he hxe => hx (hcc.sub e he x hxe)
    have h2 : addNode st x = .ok ⟨dset st.graph x [],
        st.cc ++ [(if st.cc = [] then 0 else maxKey st.cc + 1, [x])]⟩ :=
      addNode_fresh hnm
    rw [h2] at h
    injection h with h
    rw [← h]
    rw [nodeAddG, if_neg hx, nodeAddCC, if_neg hx, dset_append_of_not_mem _ hx,
      freshIdx]

theorem removeFromAdj_adj_sub {st st1 : LocalGraph} {node other : Nat}
    (h : removeFromAdj st node other = .ok st1) :
    ∀ u v, Adj st1.graph u v → Adj st.graph u v := by
  rw [removeFromAdj] at h
  rcases ho : lookupD st.graph node with _ | l
  · simp only [ho] at h
    exact Except.noConfusion h
  · simp only [ho] at h
    rcases hlr : listRemove l other with _ | l'
    · simp only [hlr] at h
      exact Except.noConfusion h
    · simp only [hlr] at h
      injection h with h
      have hl' : l' = l.erase other := by
        rw [listRemove] at hlr
        by_cases hm : other ∈ l
        · rw [if_pos hm] at hlr
          exact (Option.some.inj hlr).symm
        · rw [if_neg hm] at hlr
          exact Option.noConfusion hlr
      intro u v hadj
      rw [← h] at hadj
      obtain ⟨l2, hl2, hv⟩ := hadj
      by_cases hu : u = node
      · rw [hu, lookupD_dset_self] at hl2
        injection hl2 with hl2
        refine ⟨l, by rw [hu]; exact ho, ?_⟩
        rw [← hl2, hl'] at hv
        exact List.mem_of_mem_erase hv
      · rw [lookupD_dset_ne _ _ hu] at hl2
        exact ⟨l2, hl2, hv⟩

theorem delSingleEdge_adj_sub {st st1 : LocalGraph} {a b : Nat}
    (h : delSingleEdge st a b = .ok st1) :
    ∀ u v, Adj st1.graph u v → Adj st.graph u v := by
  by_cases hchk : checkInGraph st.graph [a, b] = true
  · rw [delSingleEdge, if_pos hchk] at h
    rcases h1 : removeFromAdj st a (returnOther2 a b a) with e | stm
    · rw [h1, gbind_error] at h
      exact Except.noConfusion h
    · rw [h1, gbind_ok] at h
      intro u v hadj
      exact removeFromAdj_adj_sub h1 u v (removeFromAdj_adj_sub h u v hadj)
  · rw [delSingleEdge, if_neg hchk] at h
    injection h with h
    rw [← h]
    intro u v hv
    exact hv

theorem irrefl_step {st st' : LocalGraph} {op : GraphOp} (hWF : WFState st)
    (hirr : ∀ x, x ∉ adjOf st.graph x) (hop : op.isSelfEdge = false)
    (h : applyOp st op = .ok st') : ∀ x, x ∉ adjOf st'.graph x := by
  cases op with
  | addN n =>
    have he := addNode_ok_eq hWF h
    intro x hx
    rw [he] at hx
    have hx2 : Adj (nodeAddG st.graph n) x x := mem_adjOf_iff_adj.mp hx
    rw [adj_nodeAddG] at hx2
    exact hirr x (mem_adjOf_iff_adj.mpr hx2)
  | delN n =>
    have he := (delNode_preserves_WF hWF h).2
    intro x hx
    rw [he] at hx
    have hx2 : Adj (delGraph st.graph n) x x := mem_adjOf_iff_adj.mp hx
    have hx3 := adj_delGraph_sub hWF.1.knd hx2
    exact hirr x (mem_adjOf_iff_adj.mpr hx3)
  | addE a b =>
    have hab : ¬a = b := by
      simp [GraphOp.isSelfEdge] at hop
      exact hop
    have hcc := hWF.2.2
    have h2 : addSingleEdge st a b = .ok st' := h
    rw [addSingleEdge_decomp a b hcc.sub] at h2
    rcases hm : addToCC (nodeAddCC (nodeAddG st.graph a)
        (nodeAddCC st.graph st.cc a) b) [a, b] with _ | cc'
    · simp only [hm] at h2
      exact Except.noConfusion h2
    · simp only [hm] at h2
      injection h2 with h2
      intro x hx
      rw [← h2] at hx
      have hx2 : Adj (eAdd (eAdd (nodeAddG (nodeAddG st.graph a) b) a b) b a)
          x x := mem_adjOf_iff_adj.mp hx
      rw [adj_eAdd, adj_eAdd] at hx2
      rcases hx2 with (hx2 | ⟨h3, h4, _⟩) | ⟨h3, h4, _⟩
      · rw [adj_nodeAddG, adj_nodeAddG] at hx2
        exact hirr x (mem_adjOf_iff_adj.mpr hx2)
      · refine hab ?_
        rw [← h3]
        exact h4
      · refine hab ?_
        rw [← h4]
        exact h3
  | delE a b =>
    have h2 : delEdge st a b = .ok st' := h
    have hdo : delEdge st a b =
        (delSingleEdge st a b >>= fun st1 =>
          match connected_components st1.graph with
          | none => Except.error st1
          | some cc' => Except.ok ⟨st1.graph, cc'⟩) := rfl
    rw [hdo] at h2
    rcases h1 : delSingleEdge st a b with e | st1
    · rw [h1, gbind_error] at h2
      exact Except.noConfusion h2
    · rw [h1, gbind_ok] at h2
      rcases hc : connected_components st1.graph with _ | cc'
      · simp only [hc] at h2
        exact Except.noConfusion h2
      · simp only [hc] at h2
        injection h2 with h2
        intro x hx
        rw [← h2] at hx
        have hx2 : Adj st1.graph x x := mem_adjOf_iff_adj.mp hx
        have hx3 := delSingleEdge_adj_sub h1 x x hx2
        exact hirr x (mem_adjOf_iff_adj.mpr hx3)

theorem runOpsFrom_irrefl {ops : List GraphOp} {st st' : LocalGraph}
    (hWF : WFState st) (hirr : ∀ x, x ∉ adjOf st.graph x)
    (hns : ∀ op ∈ ops, op.isSelfEdge = false)
    (h : runOpsFrom st ops = .ok st') : ∀ x, x ∉ adjOf st'.graph x := by
  induction ops generalizing st with
  | nil =>
    rw [runOpsFrom] at h
    injection h with h
    rw [← h]
    exact hirr
  | cons op rest ih =>
    rw [runOpsFrom] at h
    rcases ho : applyOp st op with e | st1
    · simp only [ho] at h
      exact Except.noConfusion h
    · simp only [ho] at h
      have hop := hns op (List.mem_cons_self _ _)
      have hWF1 : WFState st1 := by
        cases op with
        | addN n => exact addNode_ok_WF hWF ho
        | delN n => exact (delNode_preserves_WF hWF ho).1
        | addE a b => exact addSingleEdge_preserves_WF hWF ho
        | delE a b => exact delEdge_preserves_WF hWF ho
      exact ih hWF1 (irrefl_step hWF hirr hop ho)
        (fun o hm => hns o (List.mem_cons_of_mem _ hm)) h

/-- C7 amended: add_single_edge([a, a]) does create the self-loop
graph[a] = [..., a] (return_other([a, a], a) returns a itself), so the
claim fails for degenerate edges; it holds for every operation sequence in
which no add_edge call has two equal endpoints: then no id ever appears in
its own adjacency list. -/
theorem claim7_amended {ops : List GraphOp} {st : LocalGraph}
    (h : runOps ops = .ok st) (hns : ∀ op ∈ ops, op.isSelfEdge = false)
    (x : Nat) : x ∉ adjOf st.graph x := by
  rw [runOps] at h
  refine runOpsFrom_irrefl WFState_empty ?_ hns h x
  intro z hz
  simp [adjOf, lookupD] at hz

theorem claim7_witness : 1 ∉ adjOf [(1, [2]), (2, [1])] 1 :=
  claim7_amended
    (rfl : runOps [GraphOp.addE 1 2] =
      Except.ok ⟨[(1, [2]), (2, [1])], [(0, [1, 2])]⟩)
    (by decide) 1

theorem sameSetHalf {g cc1 cc2 : List (Nat × List Nat)}
    (h1 : WFcc g cc1) (h2 : WFcc g cc2) :
    ∀ e ∈ cc1, ∃ f ∈ cc2, ∀ z, z ∈ e.2 ↔ z ∈ f.2 := by
  intro e he
  obtain ⟨x, hxe⟩ := List.exists_mem_of_ne_nil e.2 (h1.cne e he)
  have hxk : x ∈ keysOf g := h1.sub e he x hxe
  obtain ⟨f, hf, hxf⟩ := h2.cov x hxk
  refine ⟨f, hf, ?_⟩
  intro z
  constructor
  · intro hz
    have hr : Reachable g x z := h1.conn e he x hxe z hz
    exact reachable_closed (fun w hw y hy => h2.cls f hf w hw y hy) x hxf z hr
  · intro hz
    have hr : Reachable g x z := h2.conn f hf x hxf z hz
    exact reachable_closed (fun w hw y hy => h1.cls e he w hw y hy) x hxe z hr

theorem sameSetFam_of_WFcc {g cc1 cc2 : List (Nat × List Nat)}
    (h1 : WFcc g cc1) (h2 : WFcc g cc2) : sameSetFam cc1 cc2 := by
  constructor
  · exact sameSetHalf h1 h2
  · intro f hf
    obtain ⟨e, he, hz⟩ := sameSetHalf h2 h1 f hf
    exact ⟨e, he, fun z => (hz z).symm⟩

theorem undo_empty {pr : PRState} {entry : HistEntry} {hist : List HistEntry}
    (hhist : pr.action_history = hist ++ [entry])
    (hsg : snapshotOf entry = []) :
    ∃ s d, undoLastAction pr = some ⟨⟨[], []⟩, hist, s, d⟩ := by
  have hlast : pr.action_history.getLast? = some entry := by
    rw [hhist]
    exact List.getLast?_concat _
  have hdrop : pr.action_history.dropLast = hist := by
    rw [hhist]
    exact List.dropLast_concat
  cases entry with
  | add_segment snap =>
    refine ⟨pr.edges_to_set, pr.edges_to_delete, ?_⟩
    simp only [snapshotOf] at hsg
    rw [undoLastAction]
    simp only [hlast, snapshotOf, hsg, hdrop]
  | del_segment snap =>
    refine ⟨pr.edges_to_set, pr.edges_to_delete, ?_⟩
    simp only [snapshotOf] at hsg
    rw [undoLastAction]
    simp only [hlast, snapshotOf, hsg, hdrop]
  | set snap =>
    refine ⟨pr.edges_to_set.dropLast, pr.edges_to_delete, ?_⟩
    simp only [snapshotOf] at hsg
    rw [undoLastAction]
    simp only [hlast, snapshotOf, hsg, hdrop]
  | del snap =>
    refine ⟨pr.edges_to_set, pr.edges_to_delete.dropLast, ?_⟩
    simp only [snapshotOf] at hsg
    rw [undoLastAction]
    simp only [hlast, snapshotOf, hsg, hdrop]
  | split es snap =>
    refine ⟨pr.edges_to_set, pr.edges_to_delete.filter (fun e => e ∉ es), ?_⟩
    simp only [snapshotOf] at hsg
    rw [undoLastAction]
    simp only [hlast, snapshotOf, hsg, hdrop]

theorem undo_nonempty {pr : PRState} {entry : HistEntry} {hist : List HistEntry}
    {p : Nat × List Nat} {grest ccOut : List (Nat × List Nat)}
    (hhist : pr.action_history = hist ++ [entry])
    (hsg : snapshotOf entry = p :: grest)
    (hcc : connected_components (p :: grest) = some ccOut) :
    ∃ s d, undoLastAction pr = some ⟨⟨p :: grest, ccOut⟩, hist, s, d⟩ := by
  have hlast : pr.action_history.getLast? = some entry := by
    rw [hhist]
    exact List.getLast?_concat _
  have hdrop : pr.action_history.dropLast = hist := by
    rw [hhist]
    exact List.dropLast_concat
  cases entry with
  | add_segment snap =>
    refine ⟨pr.edges_to_set, pr.edges_to_delete, ?_⟩
    simp only [snapshotOf] at hsg
    rw [undoLastAction]
    simp only [hlast, snapshotOf, hsg, hdrop, hcc]
  | del_segment snap =>
    refine ⟨pr.edges_to_set, pr.edges_to_delete, ?_⟩
    simp only [snapshotOf] at hsg
    rw [undoLastAction]
    simp only [hlast, snapshotOf, hsg, hdrop, hcc]
  | set snap =>
    refine ⟨pr.edges_to_set.dropLast, pr.edges_to_delete, ?_⟩
    simp only [snapshotOf] at hsg
    rw [undoLastAction]
    simp only [hlast, snapshotOf, hsg, hdrop, hcc]
  | del snap =>
    refine ⟨pr.edges_to_set, pr.edges_to_delete.dropLast, ?_⟩
    simp only [snapshotOf] at hsg
    rw [undoLastAction]
    simp only [hlast, snapshotOf, hsg, hdrop, hcc]
  | split es snap =>
    refine ⟨pr.edges_to_set, pr.edges_to_delete.filter (fun e => e ∉ es), ?_⟩
    simp only [snapshotOf] at hsg
    rw [undoLastAction]
    simp only [hlast, snapshotOf, hsg, hdrop, hcc]

/-- C8: with a non-empty action history whose last entry carries the graph
snapshot taken just before the mutation, _undo_last_action succeeds, pops
that entry, restores the graph attribute to the snapshot and recomputes cc
from it; the recomputed components carry exactly the memberships cc had in
the pre-mutation state (indices may differ). -/
theorem claim8_undo {ops : List GraphOp} {st0 : LocalGraph}
    {hist : List HistEntry} {entry : HistEntry} {pr : PRState}
    (hrun : runOps ops = .ok st0)
    (hhist : pr.action_history = hist ++ [entry])
    (hsnap : snapshotOf entry = st0.graph) :
    ∃ pr' : PRState, undoLastAction pr = some pr' ∧
      pr'.graph.graph = st0.graph ∧ pr'.action_history = hist ∧
      sameSetFam pr'.graph.cc st0.cc := by
  have hWF := runOps_WF hrun
  rcases hsg : st0.graph with _ | ⟨p, grest⟩
  · have hcc0 : st0.cc = [] := by
      rcases hc : st0.cc with _ | ⟨e, crest⟩
      · rfl
      · exfalso
        have he : e ∈ st0.cc := by
          rw [hc]
          exact List.mem_cons_self _ _
        obtain ⟨z, hz⟩ := List.exists_mem_of_ne_nil e.2 (hWF.2.2.cne e he)
        have hzk := hWF.2.2.sub e he z hz
        rw [hsg] at hzk
        simp [keysOf] at hzk
    obtain ⟨s, d, hu⟩ := undo_empty hhist (by rw [hsnap]; exact hsg)
    refine ⟨_, hu, rfl, rfl, ?_⟩
    rw [hcc0]
    exact ⟨fun e he => absurd he (List.not_mem_nil e),
      fun f hf => absurd hf (List.not_mem_nil f)⟩
  · obtain ⟨out, hout, hpost⟩ :=
      connected_components_sound st0.graph hWF.1 (by rw [hsg]; simp)
    have hout2 : connected_components (p :: grest) = some out := by
      rw [← hsg]
      exact hout
    obtain ⟨s, d, hu⟩ := undo_nonempty hhist (by rw [hsnap]; exact hsg) hout2
    refine ⟨_, hu, rfl, rfl, ?_⟩
    exact sameSetFam_of_WFcc (WFcc_of_CCPost hpost) hWF.2.2

theorem claim8_witness :
    ∃ pr' : PRState,
      undoLastAction ⟨⟨[(1, []), (2, [])], [(0, [1]), (1, [2])]⟩,
        [HistEntry.add_segment [(1, [])]], [], []⟩ = some pr' ∧
      pr'.graph.graph = [(1, [])] ∧ pr'.action_history = [] ∧
      sameSetFam pr'.graph.cc [(0, [1])] :=
  claim8_undo
    (rfl : runOps [GraphOp.addN 1] = Except.ok ⟨[(1, [])], [(0, [1])]⟩)
    (rfl : [HistEntry.add_segment [(1, [])]] = [] ++ [HistEntry.add_segment [(1, [])]])
    rfl
